import Mathlib

/-!
# Verification of the drawing core of `drawith-you`

Shallow embedding of the client-side drawing core of the collaborative
drawing application: the geometry utilities (`src/lib/canvas-utils.ts`),
the flood-fill engine, the vector-eraser stroke splitter, the optimistic
sync/undo reconciler (`src/hooks/useCanvasRender.ts`, second revision of
`useSupabaseSync`) and the eraser commit handler (`src/app/page.tsx`).

Coordinates are modelled as rationals: the JavaScript floating point
arithmetic is idealised as exact real arithmetic, and every comparison of
a Euclidean distance `sqrt d` against a bound `t` is embedded as the
equivalent comparison of the squared distance `d` against `t^2` (guarded
by `0 < t` where the source compares `sqrt d < t`), which keeps every
definition executable over `ℚ`.
-/

namespace Drawith

/-- A 2-D point (`Point` in `src/lib/types.ts`). -/
structure Point where
  x : ℚ
  y : ℚ
deriving DecidableEq, Repr

instance : Inhabited Point := ⟨⟨0, 0⟩⟩

/-- Squared Euclidean distance between two points. -/
def distSq (p q : Point) : ℚ :=
  (p.x - q.x) ^ 2 + (p.y - q.y) ^ 2

/-!
## `resamplePoints` (src/lib/canvas-utils.ts:355-388)

The source walks consecutive vertices; whenever `dist >= spacing` it sets
`steps = Math.floor(dist / spacing)` and inserts `steps - 1` evenly spaced
interpolated points.  Here `dist = sqrt distSq`, so for `spacing > 0` the
test `dist >= spacing` is `spacing^2 ≤ distSq` and
`steps = ⌊dist/spacing⌋ = Nat.sqrt ⌊distSq/spacing^2⌋`.
-/

/-- The interpolated points the source inserts between `prev` and `curr`
(the inner `for (let j = 1; j < steps; j++)` loop). -/
def interpBetween (prev curr : Point) (spacing : ℚ) : List Point :=
  let dx := curr.x - prev.x
  let dy := curr.y - prev.y
  let d2 := dx ^ 2 + dy ^ 2
  if spacing ^ 2 ≤ d2 then
    let steps : ℕ := Nat.sqrt (Int.toNat ⌊d2 / spacing ^ 2⌋)
    (List.range (steps - 1)).map (fun j : ℕ =>
      ⟨prev.x + dx / (steps : ℚ) * ((j : ℚ) + 1),
       prev.y + dy / (steps : ℚ) * ((j : ℚ) + 1)⟩)
  else
    []

/-- The main loop of `resamplePoints`: `prev` is the previous vertex,
`rest` the remaining original vertices. -/
def resampleGo (spacing : ℚ) : Point → List Point → List Point
  | _, [] => []
  | prev, curr :: rest =>
      interpBetween prev curr spacing ++ curr :: resampleGo spacing curr rest

/-- `resamplePoints(points, spacing)`: lists of fewer than two points are
returned unchanged. -/
def resamplePoints (points : List Point) (spacing : ℚ) : List Point :=
  match points with
  | [] => points
  | [p] => [p]
  | p :: rest => p :: resampleGo spacing p rest

/-!
## Hit detection (src/lib/canvas-utils.ts:251-312)
-/

/-- `getDistanceToLineSegment`, returning the squared distance (the source
takes `Math.sqrt` at the very end; every caller only compares the result
with a threshold). -/
def distToSegSq (x y x1 y1 x2 y2 : ℚ) : ℚ :=
  let A := x - x1
  let B := y - y1
  let C := x2 - x1
  let D := y2 - y1
  let dot := A * C + B * D
  let lenSq := C * C + D * D
  let param := if lenSq ≠ 0 then dot / lenSq else -1
  let xx := if param < 0 then x1 else if param > 1 then x2 else x1 + param * C
  let yy := if param < 0 then y1 else if param > 1 then y2 else y1 + param * D
  (x - xx) ^ 2 + (y - yy) ^ 2

/-- The segment loop of `isPointNearStroke`: does any consecutive segment
come strictly closer than `threshold`?  `sqrt d < t ↔ 0 < t ∧ d < t^2`. -/
def anySegNear (x y : ℚ) (threshold : ℚ) : List Point → Bool
  | p1 :: p2 :: rest =>
      decide (0 < threshold ∧ distToSegSq x y p1.x p1.y p2.x p2.y < threshold ^ 2)
        || anySegNear x y threshold (p2 :: rest)
  | _ => false

/-- `isPointNearStroke(x, y, points, threshold)`. -/
def isPointNearStroke (x y : ℚ) (points : List Point) (threshold : ℚ) : Bool :=
  match points with
  | [] => false
  | [p] => decide (0 < threshold ∧ (x - p.x) ^ 2 + (y - p.y) ^ 2 < threshold ^ 2)
  | _ :: _ :: _ => anySegNear x y threshold points

/-!
## Bounding boxes (src/lib/canvas-utils.ts:390-437)
-/

structure BoundingBox where
  minX : ℚ
  minY : ℚ
  maxX : ℚ
  maxY : ℚ
deriving DecidableEq, Repr

/-- `getBoundingBox(points, padding)`.  The source seeds the fold with
`±Infinity`; for a nonempty list this equals seeding with the first
point, which is how it is written here (`ℚ` has no infinities). -/
def getBoundingBox (points : List Point) (padding : ℚ) : BoundingBox :=
  match points with
  | [] => ⟨0, 0, 0, 0⟩
  | p :: ps =>
      let minX := ps.foldl (fun m q => min m q.x) p.x
      let minY := ps.foldl (fun m q => min m q.y) p.y
      let maxX := ps.foldl (fun m q => max m q.x) p.x
      let maxY := ps.foldl (fun m q => max m q.y) p.y
      ⟨minX - padding, minY - padding, maxX + padding, maxY + padding⟩

/-- `doBoxesIntersect(box1, box2)` (all comparisons strict). -/
def doBoxesIntersect (box1 box2 : BoundingBox) : Bool :=
  decide (box1.minX < box2.maxX) && decide (box1.maxX > box2.minX) &&
    decide (box1.minY < box2.maxY) && decide (box1.maxY > box2.minY)

/-!
## Strokes (src/lib/types.ts)
-/

/-- The `Tool` union of `src/lib/types.ts` (string literals plus `null`,
the transient "no tool" mode). -/
inductive Tool where
  | pen
  | eraser
  | text
  | fill
  | select
  | background
  | nullTool
deriving DecidableEq, Repr

/-- `Stroke` from `src/lib/types.ts`.  UUID strings are modelled as
natural-number identifiers; optional TS fields are `Option`s. -/
structure Stroke where
  id : ℕ
  tool : Tool
  color : String
  size : ℚ
  feather : Option ℚ
  points : List Point
  timestamp : ℤ
  text : Option String
  isComplete : Option Bool
deriving DecidableEq, Repr

/-!
## `splitStroke` (src/lib/canvas-utils.ts:439-512)

`crypto.randomUUID()` is modelled by an identifier supply
`freshId : ℕ → ℕ`: the k-th fragment created by one `splitStroke` call
receives id `freshId k`.
-/

/-- The fragment object `{ ...originalStroke, id, points, isComplete: true }`. -/
def mkFragment (template : Stroke) (id : ℕ) (seg : List Point) : Stroke :=
  { template with id := id, points := seg, isComplete := some true }

/-- The accumulation loop of `splitStroke`: walk the resampled points,
breaking the current segment at every erased point.  `k` counts the
fragments already produced (indexing the id supply). -/
def splitLoop (template : Stroke) (freshId : ℕ → ℕ) (eraserPoints : List Point)
    (eraserSize : ℚ) : List Point → List Point → List Stroke → ℕ → List Stroke
  | [], currentSegment, acc, k =>
      if currentSegment ≠ [] then
        acc ++ [mkFragment template (freshId k) currentSegment]
      else acc
  | p :: rest, currentSegment, acc, k =>
      if isPointNearStroke p.x p.y eraserPoints (eraserSize / 2) then
        if currentSegment ≠ [] then
          splitLoop template freshId eraserPoints eraserSize rest []
            (acc ++ [mkFragment template (freshId k) currentSegment]) (k + 1)
        else
          splitLoop template freshId eraserPoints eraserSize rest [] acc k
      else
        splitLoop template freshId eraserPoints eraserSize rest
          (currentSegment ++ [p]) acc k

/-- `splitStroke(originalStroke, eraserPoints, eraserSize)`. -/
def splitStroke (freshId : ℕ → ℕ) (originalStroke : Stroke)
    (eraserPoints : List Point) (eraserSize : ℚ) : List Stroke :=
  if originalStroke.points = [] then [originalStroke]
  else if eraserPoints = [] then [originalStroke]
  else
    let strokeBox := getBoundingBox originalStroke.points (originalStroke.size / 2)
    let eraserBox := getBoundingBox eraserPoints (eraserSize / 2)
    if ¬ doBoxesIntersect strokeBox eraserBox then [originalStroke]
    else
      let sampleSpacing := max 1 (eraserSize / 8)
      let points := resamplePoints originalStroke.points sampleSpacing
      if points = [] then []
      else splitLoop originalStroke freshId eraserPoints eraserSize points [] [] 0

/-- Spec-side description of the fragments ("maximal contiguous kept
runs"): group the consecutive points not classified `erased`, drop the
separators and any empty runs. -/
def keptRuns (erased : Point → Bool) : List Point → List (List Point)
  | [] => []
  | p :: rest =>
      if erased p then keptRuns erased rest
      else
        (p :: rest.takeWhile (fun q => !erased q)) ::
          keptRuns erased (rest.dropWhile (fun q => !erased q))
termination_by pts => pts.length
decreasing_by
  · simp only [List.length_cons]; omega
  · have h : ∀ l : List Point, (l.dropWhile (fun q => !erased q)).length ≤ l.length :=
      fun l => (List.dropWhile_suffix _).sublist.length_le
    simp only [List.length_cons]
    exact Nat.lt_succ_of_le (h _)

/-!
## Flood fill (src/lib/canvas-utils.ts:100-228)

The raster is `width × height` RGBA pixels, read through the flat
`Uint8ClampedArray` layout of `getImageData`: channel `c` of pixel
`(x, y)` lives at `data (4 * (y * width + x) + c)`.  The browser's CSS
parse of the fill-color string (done in the source through a 1×1 temp
canvas) is abstracted as the four channel values `fillR..fillA` given to
`getFloodFillRegion`; the returned patch canvas (fill color written at
exactly the flooded pixels) is represented by the `Finset` of flooded
flat pixel indices, `none` standing for the `null` no-op result.

The `while (stack.length > 0)` loop is embedded with an explicit fuel
parameter (`floodLoop fuel = none` meaning "fuel exhausted", which the
chosen fuel `floodFuel` provably never reaches).
-/

structure Raster where
  width : ℕ
  height : ℕ
  data : ℕ → ℕ

/-- `Math.abs (a - b)` for channel values. -/
def absDiff (a b : ℕ) : ℕ :=
  if a ≤ b then b - a else a - b

/-- The inlined `matchColor` test against the seed color, channel-wise
tolerance 35. -/
def matchColor (img : Raster) (tR tG tB tA : ℕ) (x y : ℕ) : Bool :=
  let dataIdx := (y * img.width + x) * 4
  decide (absDiff (img.data dataIdx) tR ≤ 35) &&
    decide (absDiff (img.data (dataIdx + 1)) tG ≤ 35) &&
    decide (absDiff (img.data (dataIdx + 2)) tB ≤ 35) &&
    decide (absDiff (img.data (dataIdx + 3)) tA ≤ 35)

/-- The "Strict Containment Rule" test
`x <= 0 || x >= width - 1 || y <= 0 || y >= height - 1`. -/
def onBoundary (img : Raster) (x y : ℕ) : Bool :=
  decide (x ≤ 0) || decide (img.width - 1 ≤ x) ||
    decide (y ≤ 0) || decide (img.height - 1 ≤ y)

/-- The four neighbor pushes with their bounds guards.  The source pushes
right, left, down, up onto an array stack (top = end); with the list head
as stack top the resulting stack is up, down, left, right, `rest`. -/
def pushNeighbors (img : Raster) (x y : ℕ) (rest : List (ℕ × ℕ)) : List (ℕ × ℕ) :=
  let s1 := if x + 1 < img.width then (x + 1, y) :: rest else rest
  let s2 := if 1 ≤ x then (x - 1, y) :: s1 else s1
  let s3 := if y + 1 < img.height then (x, y + 1) :: s2 else s2
  if 1 ≤ y then (x, y - 1) :: s3 else s3

/-- The stack-based fill loop.  Result: `none` = fuel exhausted (never
happens for the fuel used below), `some none` = the loop hit the raster
boundary (`hitBoundary`, the caller returns `null`), `some (some seen)` =
the stack emptied with flooded region `seen`. -/
def floodLoop (img : Raster) (tR tG tB tA : ℕ) :
    ℕ → List (ℕ × ℕ) → Finset ℕ → Option (Option (Finset ℕ))
  | 0, _, _ => none
  | _ + 1, [], seen => some (some seen)
  | fuel + 1, (x, y) :: rest, seen =>
      let pixelIndex := y * img.width + x
      if pixelIndex ∈ seen then
        floodLoop img tR tG tB tA fuel rest seen
      else if onBoundary img x y then
        some none
      else if matchColor img tR tG tB tA x y then
        floodLoop img tR tG tB tA fuel (pushNeighbors img x y rest)
          (insert pixelIndex seen)
      else
        floodLoop img tR tG tB tA fuel rest seen

/-- Fuel that provably suffices for `floodLoop` started on `[(sx, sy)]`. -/
def floodFuel (img : Raster) : ℕ :=
  5 * (img.width * img.height) + 2

/-- `getFloodFillRegion(ctx, startX, startY, fillColor)`.  The seed
coordinates are the already-`Math.floor`ed integers; `fillR..fillA` is the
parsed fill color. -/
def getFloodFillRegion (img : Raster) (startX startY : ℤ)
    (fillR fillG fillB fillA : ℕ) : Option (Finset ℕ) :=
  if startX < 0 ∨ (img.width : ℤ) ≤ startX ∨ startY < 0 ∨ (img.height : ℤ) ≤ startY then
    none
  else
    let sx := startX.toNat
    let sy := startY.toNat
    let startIndex := (sy * img.width + sx) * 4
    let targetR := img.data startIndex
    let targetG := img.data (startIndex + 1)
    let targetB := img.data (startIndex + 2)
    let targetA := img.data (startIndex + 3)
    -- "Early exit if color matches" (strict equality on every channel)
    if targetR = fillR ∧ targetG = fillG ∧ targetB = fillB ∧ targetA = fillA then
      none
    else
      match floodLoop img targetR targetG targetB targetA (floodFuel img) [(sx, sy)] ∅ with
      | none => none          -- fuel exhaustion; unreachable, see `floodLoop_ne_fuelOut`
      | some none => none     -- hitBoundary: cancel the fill
      | some (some seen) => some seen

/-!
### Specification vocabulary for the flood fill

Executable predicates used to state (and decide, on concrete rasters)
the leak-detection claims: 4-adjacency of pixels, in-bounds tests and
"matches the color under the seed within tolerance".
-/

/-- 4-adjacency of two pixels. -/
def adjB (p q : ℕ × ℕ) : Bool :=
  (p.1 = q.1 && (p.2 + 1 = q.2 || q.2 + 1 = p.2)) ||
    (p.2 = q.2 && (p.1 + 1 = q.1 || q.1 + 1 = p.1))

/-- Both coordinates inside the raster. -/
def inBoundsB (img : Raster) (p : ℕ × ℕ) : Bool :=
  p.1 < img.width && p.2 < img.height

/-- Consecutive elements of the list are 4-adjacent. -/
def chainAdjB : List (ℕ × ℕ) → Bool
  | p :: q :: rest => adjB p q && chainAdjB (q :: rest)
  | _ => true

/-- Pixel `(x, y)` matches (tolerance 35, channel-wise) the color of the
pixel under the seed `(sx, sy)`. -/
def matchesSeed (img : Raster) (sx sy x y : ℕ) : Bool :=
  matchColor img
    (img.data ((sy * img.width + sx) * 4))
    (img.data ((sy * img.width + sx) * 4 + 1))
    (img.data ((sy * img.width + sx) * 4 + 2))
    (img.data ((sy * img.width + sx) * 4 + 3)) x y

/-!
### Concrete sample rasters (used by flood-fill witnesses)
-/

/-- 1×1 raster, all channels zero. -/
def raster1 : Raster := ⟨1, 1, fun _ => 0⟩

/-- 3×3 raster in a single uniform color. -/
def raster3 : Raster := ⟨3, 3, fun _ => 50⟩

/-- 4×4 raster: the four interior pixels hold color 100, the border ring
holds color 0 (alpha channel 255 everywhere). -/
def raster4 : Raster :=
  ⟨4, 4, fun i =>
    let p := i / 4
    let c := i % 4
    let x := p % 4
    let y := p / 4
    if c = 3 then 255
    else if 1 ≤ x ∧ x ≤ 2 ∧ 1 ≤ y ∧ y ≤ 2 then 100 else 0⟩

/-- 7×7 raster: the central 3×3 block (x, y ∈ {2,3,4}) holds color 100,
everything else color 0 (alpha 255 everywhere).  The block does not touch
the one-pixel inner ring, so a fill seeded at its center succeeds. -/
def raster7 : Raster :=
  ⟨7, 7, fun i =>
    let p := i / 4
    let c := i % 4
    let x := p % 7
    let y := p / 7
    if c = 3 then 255
    else if 2 ≤ x ∧ x ≤ 4 ∧ 2 ≤ y ∧ y ≤ 4 then 100 else 0⟩

/-!
## Sync reconciler (src/hooks/useCanvasRender.ts, `useSupabaseSync`)

The hook's local state is the stroke list plus the undo and redo stacks
of `HistoryAction`s; `dispatch`, `undo` and `redo` mutate it exactly as
the optimistic `setStrokes`/`setUndoStack`/`setRedoStack` updates do (the
network side effects `syncInsert`/`syncUpdate`/`syncDelete` mirror the
local updates and carry no further local state).  The object spread
`{ ...s, ...other }` is modelled as full replacement by `other`, since
every `Stroke` record here carries all of its fields.
-/

/-- `HistoryAction` (src/lib/types.ts): `ADD`, `UPDATE`, `DELETE`. -/
inductive HistoryAction where
  | add (stroke : Stroke)
  | update (original newStroke : Stroke)
  | delete (stroke : Stroke)
deriving DecidableEq, Repr

structure SyncState where
  strokes : List Stroke
  undoStack : List HistoryAction
  redoStack : List HistoryAction
deriving DecidableEq, Repr

/-- The forward effect of an action on the stroke list (shared by
`dispatch` and `redo`). -/
def applyForward (action : HistoryAction) (strokes : List Stroke) : List Stroke :=
  match action with
  | .add s => strokes ++ [s]
  | .update _ n => strokes.map (fun s => if s.id = n.id then n else s)
  | .delete s => strokes.filter (fun t => t.id ≠ s.id)

/-- `dispatch(action)`: optimistic local mutation, push onto the undo
stack, clear the redo stack. -/
def dispatch (st : SyncState) (action : HistoryAction) : SyncState :=
  { strokes := applyForward action st.strokes
    undoStack := st.undoStack ++ [action]
    redoStack := [] }

/-- `addStroke(stroke)` is `dispatch({type: "ADD", stroke})`. -/
def addStroke (st : SyncState) (stroke : Stroke) : SyncState :=
  dispatch st (.add stroke)

/-- `undo()`: pop the most recent action, invert it on the stroke list,
move it to the redo stack. -/
def undo (st : SyncState) : SyncState :=
  match st.undoStack.getLast? with
  | none => st
  | some action =>
      let strokes' :=
        match action with
        | .add s => st.strokes.filter (fun t => t.id ≠ s.id)
        | .update original _ =>
            st.strokes.map (fun s => if s.id = original.id then original else s)
        | .delete s => st.strokes ++ [s]
      { strokes := strokes'
        undoStack := st.undoStack.dropLast
        redoStack := st.redoStack ++ [action] }

/-- `redo()`: pop from the redo stack, re-apply forward, push back onto
the undo stack. -/
def redo (st : SyncState) : SyncState :=
  match st.redoStack.getLast? with
  | none => st
  | some action =>
      { strokes := applyForward action st.strokes
        undoStack := st.undoStack ++ [action]
        redoStack := st.redoStack.dropLast }

/-!
## Remote events and echo suppression

`useSupabaseSync(roomId, ignoreUpdateIds)` applies Postgres change events
to the local list; `CanvasPageClient` (src/app/page.tsx:122-126) passes
`ignoreUpdateIds = [selectedStrokeId]` when a stroke is selected and `[]`
otherwise.
-/

inductive RemoteEvent where
  | insert (stroke : Stroke)
  | update (stroke : Stroke)
  | delete (id : ℕ)
deriving DecidableEq, Repr

/-- The realtime subscription callback's effect on the local stroke
list. -/
def applyRemoteEvent (ignoreUpdateIds : List ℕ) (strokes : List Stroke)
    (ev : RemoteEvent) : List Stroke :=
  match ev with
  | .insert s => if strokes.any (fun t => t.id = s.id) then strokes else strokes ++ [s]
  | .update s =>
      if s.id ∈ ignoreUpdateIds then strokes
      else strokes.map (fun t => if t.id = s.id then s else t)
  | .delete id => strokes.filter (fun t => t.id ≠ id)

/-- The ignore list derived in `CanvasPageClient` from the current
selection. -/
def ignoreIdsFor (selectedStrokeId : Option ℕ) : List ℕ :=
  match selectedStrokeId with
  | some id => [id]
  | none => []

/-!
## Eraser commit (src/app/page.tsx:241-300, `handleStrokeComplete`)

The handler's effect is modelled as the list of store operations it
emits, in order: first the deletions of modified strokes, then the
insertions of their fragments.  `freshIds i` is the fragment-id supply
used for the `splitStroke` call on the `i`-th existing stroke.
-/

inductive SyncOp where
  | addOp (stroke : Stroke)
  | deleteOp (id : ℕ)
deriving DecidableEq, Repr

/-- The `isModified` test of `handleStrokeComplete`. -/
def strokeModified (freshId : ℕ → ℕ) (existingStroke : Stroke)
    (eraserPoints : List Point) (eraserSize : ℚ) : Bool :=
  let fragments := splitStroke freshId existingStroke eraserPoints eraserSize
  !(fragments.length = 1 &&
      (fragments.headD existingStroke).points.length = existingStroke.points.length)

/-- `handleStrokeComplete(stroke)` as the list of emitted operations. -/
def handleStrokeComplete (freshIds : ℕ → ℕ → ℕ) (strokes : List Stroke)
    (stroke : Stroke) : List SyncOp :=
  if stroke.tool = Tool.eraser then
    let modifiedPairs :=
      strokes.enum.filterMap (fun (iex : ℕ × Stroke) =>
        let ex := iex.2
        if ex.tool = Tool.background ∨ ex.tool = Tool.eraser then none
        else if strokeModified (freshIds iex.1) ex stroke.points stroke.size then
          some (ex, splitStroke (freshIds iex.1) ex stroke.points stroke.size)
        else none)
    if modifiedPairs.isEmpty then []
    else
      modifiedPairs.map (fun p => SyncOp.deleteOp p.1.id) ++
        (modifiedPairs.map (fun p => p.2)).flatten.map SyncOp.addOp
  else
    [SyncOp.addOp stroke]

/-!
## Background derivation (src/hooks/useCanvasRender.ts:84-93 and
src/components/Canvas.tsx `getCurrentBackgroundColor`)
-/

/-- Scan the stroke list from the most recent end for a
`tool=background` stroke; default white.  The source's
`for (let i = strokes.length - 1; i >= 0; i--)` loop is the first match
on the reversed list. -/
def deriveBackgroundColor (strokes : List Stroke) : String :=
  match strokes.reverse.find? (fun s => s.tool = Tool.background) with
  | some s => s.color
  | none => "#FFFFFF"

/-!
## Concrete sample data used by the witnesses
-/

def penStrokeA : Stroke :=
  ⟨7, Tool.pen, "#000000", 2, none, [⟨1, 2⟩], 5, none, some true⟩

def penStrokeB : Stroke :=
  ⟨9, Tool.pen, "#FF0000", 3, some 1, [⟨0, 0⟩, ⟨3, 4⟩], 11, none, some true⟩

def emptySyncState : SyncState := ⟨[], [], []⟩

def deleteSyncState : SyncState := ⟨[], [HistoryAction.delete penStrokeA], []⟩

/-!
# Theorems
-/

/-- **C9.** For every stroke list, the derived background color equals the
color of the last stroke with `tool=background` (reverse scan), and equals
white `#FFFFFF` when no background stroke exists, regardless of
interleaved non-background strokes. -/
theorem deriveBackgroundColor_spec (pre post strokes : List Stroke) (s : Stroke)
    (hs : s.tool = Tool.background)
    (hpost : ∀ t ∈ post, t.tool ≠ Tool.background)
    (hnone : ∀ t ∈ strokes, t.tool ≠ Tool.background) :
    deriveBackgroundColor (pre ++ s :: post) = s.color ∧
      deriveBackgroundColor strokes = "#FFFFFF" := by
  constructor
  · have hrev : (pre ++ s :: post).reverse = post.reverse ++ s :: pre.reverse := by
      simp
    have hfail : post.reverse.find? (fun t => t.tool = Tool.background) = none := by
      rw [List.find?_eq_none]
      intro t ht
      simpa using hpost t (by simpa using ht)
    rw [deriveBackgroundColor, hrev, List.find?_append, hfail, Option.none_or,
      List.find?_cons_of_pos _ (by simpa using hs)]
  · have hfail : strokes.reverse.find? (fun t => t.tool = Tool.background) = none := by
      rw [List.find?_eq_none]
      intro t ht
      simpa using hnone t (by simpa using ht)
    rw [deriveBackgroundColor, hfail]

/-- Witness for the **C9** theorem: the spec's own example
`[bg=white, pen, bg=black]` derives black, and a list with no background
stroke derives white. -/
theorem deriveBackgroundColor_spec_witness :
    deriveBackgroundColor
        [⟨1, Tool.background, "#FFFFFF", 0, none, [⟨0, 0⟩], 1, none, some true⟩,
         ⟨2, Tool.pen, "#FF0000", 4, none, [⟨1, 1⟩], 2, none, some true⟩,
         ⟨3, Tool.background, "#000000", 0, none, [⟨0, 0⟩], 3, none, some true⟩] =
      "#000000" ∧
    deriveBackgroundColor
        [⟨2, Tool.pen, "#FF0000", 4, none, [⟨1, 1⟩], 2, none, some true⟩] =
      "#FFFFFF" :=
  deriveBackgroundColor_spec
    [⟨1, Tool.background, "#FFFFFF", 0, none, [⟨0, 0⟩], 1, none, some true⟩,
     ⟨2, Tool.pen, "#FF0000", 4, none, [⟨1, 1⟩], 2, none, some true⟩]
    []
    [⟨2, Tool.pen, "#FF0000", 4, none, [⟨1, 1⟩], 2, none, some true⟩]
    ⟨3, Tool.background, "#000000", 0, none, [⟨0, 0⟩], 3, none, some true⟩
    rfl (by intro t ht; simp at ht) (by intro t ht; simp at ht; subst ht; simp)

/-- **C4.** `undo()` pops the most recent `HistoryAction`, inverts it on
the local stroke list (ADD removes the stroke, UPDATE restores the
original, DELETE re-inserts the removed stroke) and moves the action to
the redo stack; in particular after `addStroke S` followed by `undo` the
local list does not contain `S`, and a following `redo` restores `S` with
identical fields. -/
theorem undo_redo_spec (st st' : SyncState) (S : Stroke)
    (stk : List HistoryAction) (a : HistoryAction)
    (h : st'.undoStack = stk ++ [a]) :
    -- general inversion of the most recent action
    ((undo st').undoStack = stk ∧
     (undo st').redoStack = st'.redoStack ++ [a] ∧
     (∀ s, a = .add s →
        (undo st').strokes = st'.strokes.filter (fun t => t.id ≠ s.id)) ∧
     (∀ original n, a = .update original n →
        (undo st').strokes =
          st'.strokes.map (fun s => if s.id = original.id then original else s)) ∧
     (∀ s, a = .delete s → (undo st').strokes = st'.strokes ++ [s])) ∧
    -- ADD scenario: add, undo, redo
    (S ∉ (undo (addStroke st S)).strokes ∧
     (∀ t ∈ (undo (addStroke st S)).strokes, t.id ≠ S.id) ∧
     (undo (addStroke st S)).redoStack = [.add S] ∧
     (redo (undo (addStroke st S))).strokes =
       (undo (addStroke st S)).strokes ++ [S] ∧
     S ∈ (redo (undo (addStroke st S))).strokes) := by
  constructor
  · refine ⟨?_, ?_, ?_, ?_, ?_⟩
    · rw [undo, h, List.getLast?_concat, List.dropLast_concat]
    · rw [undo, h, List.getLast?_concat]
    · rintro s rfl; rw [undo, h, List.getLast?_concat]
    · rintro original n rfl; rw [undo, h, List.getLast?_concat]
    · rintro s rfl; rw [undo, h, List.getLast?_concat]
  · have h1 : (addStroke st S).undoStack = st.undoStack ++ [.add S] := rfl
    have hu : undo (addStroke st S) =
        { strokes := (st.strokes ++ [S]).filter (fun t => t.id ≠ S.id)
          undoStack := st.undoStack
          redoStack := [.add S] } := by
      rw [undo, h1, List.getLast?_concat]
      simp [addStroke, dispatch, applyForward, h1, List.dropLast_concat]
    refine ⟨?_, ?_, ?_, ?_, ?_⟩
    · rw [hu]
      intro hmem
      have := (List.mem_filter.mp hmem).2
      simp at this
    · rw [hu]
      intro t ht
      have := (List.mem_filter.mp ht).2
      simpa using this
    · rw [hu]
    · rw [redo, hu]; rfl
    · rw [redo, hu]
      simp [applyForward]

/-- Witness for the **C4** theorem: undoing a recorded DELETE re-inserts
the stroke, and the ADD/undo/redo round trip behaves as claimed, at
concrete states. -/
theorem undo_redo_spec_witness :
    deleteSyncState.undoStack = [] ++ [HistoryAction.delete penStrokeA] ∧
    (((undo deleteSyncState).undoStack = [] ∧
      (undo deleteSyncState).redoStack =
        deleteSyncState.redoStack ++ [HistoryAction.delete penStrokeA] ∧
      (∀ s, HistoryAction.delete penStrokeA = .add s →
        (undo deleteSyncState).strokes =
          deleteSyncState.strokes.filter (fun t => t.id ≠ s.id)) ∧
      (∀ original n, HistoryAction.delete penStrokeA = .update original n →
        (undo deleteSyncState).strokes =
          deleteSyncState.strokes.map
            (fun s => if s.id = original.id then original else s)) ∧
      (∀ s, HistoryAction.delete penStrokeA = .delete s →
        (undo deleteSyncState).strokes = deleteSyncState.strokes ++ [s])) ∧
     (penStrokeB ∉ (undo (addStroke emptySyncState penStrokeB)).strokes ∧
      (∀ t ∈ (undo (addStroke emptySyncState penStrokeB)).strokes, t.id ≠ penStrokeB.id) ∧
      (undo (addStroke emptySyncState penStrokeB)).redoStack = [.add penStrokeB] ∧
      (redo (undo (addStroke emptySyncState penStrokeB))).strokes =
        (undo (addStroke emptySyncState penStrokeB)).strokes ++ [penStrokeB] ∧
      penStrokeB ∈ (redo (undo (addStroke emptySyncState penStrokeB))).strokes)) :=
  ⟨rfl, undo_redo_spec emptySyncState deleteSyncState penStrokeB []
    (HistoryAction.delete penStrokeA) rfl⟩

/-- **C8.** The ignore set is exactly the currently selected stroke (empty
when none is selected); while a stroke id is in it, an incoming remote
UPDATE for that id leaves the local stroke list unchanged, and remote
UPDATEs for every other id are applied. -/
theorem echo_suppression_spec (sel : Option ℕ) (strokes : List Stroke) (u : Stroke) :
    (u.id ∈ ignoreIdsFor sel ↔ sel = some u.id) ∧
    applyRemoteEvent (ignoreIdsFor sel) strokes (.update u) =
      (if sel = some u.id then strokes
       else strokes.map (fun t => if t.id = u.id then u else t)) := by
  cases sel with
  | none =>
      refine ⟨by simp [ignoreIdsFor], ?_⟩
      rw [if_neg (by simp)]
      simp [applyRemoteEvent, ignoreIdsFor]
  | some i =>
      by_cases hi : i = u.id
      · subst hi
        refine ⟨by simp [ignoreIdsFor], ?_⟩
        rw [if_pos rfl]
        simp [applyRemoteEvent, ignoreIdsFor]
      · have hne : u.id ≠ i := fun he => hi he.symm
        refine ⟨by simp [ignoreIdsFor, hi, eq_comm], ?_⟩
        rw [if_neg (fun he => hi (Option.some.inj he))]
        simp [applyRemoteEvent, ignoreIdsFor, hne]

/-- **C6.** If the padded bounding box of the stroke does not intersect
the padded bounding box of the eraser path, `splitStroke` returns exactly
`[originalStroke]` unchanged (same id). -/
theorem splitStroke_bbox_noop (freshId : ℕ → ℕ) (S : Stroke)
    (E : List Point) (w : ℚ)
    (h : doBoxesIntersect (getBoundingBox S.points (S.size / 2))
        (getBoundingBox E (w / 2)) = false) :
    splitStroke freshId S E w = [S] := by
  rw [splitStroke]
  by_cases h1 : S.points = []
  · rw [if_pos h1]
  · rw [if_neg h1]
    by_cases h2 : E = []
    · rw [if_pos h2]
    · rw [if_neg h2, if_pos (by simp [h])]

/-!
### Resampling lemmas (towards C2)
-/

/-- The original vertices survive `resampleGo` as a subsequence. -/
theorem resampleGo_sublist (spacing : ℚ) :
    ∀ (rest : List Point) (prev : Point),
      List.Sublist rest (resampleGo spacing prev rest) := by
  intro rest
  induction rest with
  | nil => intro prev; simp [resampleGo]
  | cons curr rest' ih =>
      intro prev
      rw [resampleGo]
      exact ((ih curr).cons₂ curr).trans (List.sublist_append_right _ _)

/-- One resampled span: walking from `prev` through the inserted points
to `curr`, consecutive points are (strictly) closer than `2 * spacing`
apart.  This is where the `steps = ⌊dist/spacing⌋` arithmetic lives: the
sub-gaps all have squared length `d2 / steps^2 < (2*spacing)^2`. -/
theorem interpBetween_chain (spacing : ℚ) (hsp : 0 < spacing) (prev curr : Point) :
    List.Chain' (fun a b => distSq a b < (2 * spacing) ^ 2)
      (prev :: (interpBetween prev curr spacing ++ [curr])) := by
  simp only [interpBetween]
  set dx := curr.x - prev.x with hdx
  set dy := curr.y - prev.y with hdy
  by_cases hc : spacing ^ 2 ≤ dx ^ 2 + dy ^ 2
  · rw [if_pos hc]
    set q : ℚ := (dx ^ 2 + dy ^ 2) / spacing ^ 2 with hq
    set s : ℕ := Nat.sqrt (Int.toNat ⌊q⌋) with hs
    have hsp2 : (0 : ℚ) < spacing ^ 2 := by positivity
    have hq1 : (1 : ℚ) ≤ q := (one_le_div hsp2).mpr hc
    have hfl1 : (1 : ℤ) ≤ ⌊q⌋ := Int.le_floor.mpr (by exact_mod_cast hq1)
    have hn1 : 1 ≤ Int.toNat ⌊q⌋ := by omega
    have hs1 : 1 ≤ s := Nat.le_sqrt.mpr (by simpa using hn1)
    have hsQ : (0 : ℚ) < (s : ℚ) := by exact_mod_cast hs1
    have hs1Q : (1 : ℚ) ≤ (s : ℚ) := by exact_mod_cast hs1
    have hqlt : q < ((s : ℚ) + 1) ^ 2 := by
      have h1 : q < (⌊q⌋ : ℚ) + 1 := Int.lt_floor_add_one q
      have h2' : ((Int.toNat ⌊q⌋ : ℕ) : ℤ) = ⌊q⌋ := Int.toNat_of_nonneg (by omega)
      have h2 : ((⌊q⌋ : ℤ) : ℚ) = ((Int.toNat ⌊q⌋ : ℕ) : ℚ) := by exact_mod_cast h2'.symm
      have h3 : Int.toNat ⌊q⌋ < (s + 1) ^ 2 := Nat.lt_succ_sqrt' _
      have h4 : ((Int.toNat ⌊q⌋ : ℕ) : ℚ) + 1 ≤ (((s + 1) ^ 2 : ℕ) : ℚ) := by
        exact_mod_cast h3
      calc q < (⌊q⌋ : ℚ) + 1 := h1
        _ = ((Int.toNat ⌊q⌋ : ℕ) : ℚ) + 1 := by rw [h2]
        _ ≤ (((s + 1) ^ 2 : ℕ) : ℚ) := h4
        _ = ((s : ℚ) + 1) ^ 2 := by push_cast; ring
    have hq4 : q < 4 * (s : ℚ) ^ 2 := by
      have h5 : ((s : ℚ) + 1) ^ 2 ≤ 4 * (s : ℚ) ^ 2 := by
        nlinarith [sq_nonneg ((s : ℚ) - 1)]
      linarith
    have hgap : (dx / s) ^ 2 + (dy / s) ^ 2 < (2 * spacing) ^ 2 := by
      have hd2 : dx ^ 2 + dy ^ 2 = q * spacing ^ 2 := by
        field_simp [hq]
      have : q * spacing ^ 2 < 4 * (s : ℚ) ^ 2 * spacing ^ 2 := by
        exact mul_lt_mul_of_pos_right hq4 hsp2
      have hlt : dx ^ 2 + dy ^ 2 < 4 * (s : ℚ) ^ 2 * spacing ^ 2 := by
        rw [hd2]; exact this
      have hs2 : (0 : ℚ) < (s : ℚ) ^ 2 := by positivity
      rw [div_pow, div_pow, div_add_div_same, div_lt_iff₀ hs2]
      calc dx ^ 2 + dy ^ 2 < 4 * (s : ℚ) ^ 2 * spacing ^ 2 := hlt
        _ = (2 * spacing) ^ 2 * (s : ℚ) ^ 2 := by ring
    -- the whole span is the affine image of `range (s + 1)`
    have hlist :
        prev :: ((List.range (s - 1)).map (fun j : ℕ =>
            (⟨prev.x + dx / s * (j + 1), prev.y + dy / s * (j + 1)⟩ : Point)) ++ [curr]) =
          (List.range (s + 1)).map (fun j : ℕ =>
            (⟨prev.x + dx / s * j, prev.y + dy / s * j⟩ : Point)) := by
      rw [List.range_succ, List.map_append]
      have hcurr : (⟨prev.x + dx / s * s, prev.y + dy / s * s⟩ : Point) = curr := by
        have hns : (s : ℚ) ≠ 0 := ne_of_gt hsQ
        have hx : prev.x + dx / s * s = curr.x := by
          field_simp [hdx]
        have hy : prev.y + dy / s * s = curr.y := by
          field_simp [hdy]
        cases curr
        simp only [hx, hy]
      have hsplit : s = (s - 1) + 1 := by omega
      rw [hsplit, List.range_succ_eq_map]
      simp only [List.map_cons, List.map_map, ← hsplit]
      have hzero : (⟨prev.x + dx / s * (0 : ℕ), prev.y + dy / s * (0 : ℕ)⟩ : Point) = prev := by
        cases prev
        simp
      rw [hcurr, hzero]
      congr 1
      congr 1
      apply List.map_congr_left
      intro j _
      simp only [Function.comp_apply, Nat.succ_eq_add_one]
      congr 1 <;> push_cast <;> ring
    rw [hlist, List.chain'_map]
    rw [List.chain'_range_succ]
    intro m _
    have hdist : distSq
        (⟨prev.x + dx / s * m, prev.y + dy / s * m⟩ : Point)
        (⟨prev.x + dx / s * (m + 1), prev.y + dy / s * (m + 1)⟩ : Point) =
        (dx / s) ^ 2 + (dy / s) ^ 2 := by
      rw [distSq]
      push_cast
      ring
    push_cast
    rw [hdist]
    exact hgap
  · rw [if_neg hc]
    simp only [List.nil_append]
    rw [List.chain'_pair]
    have hd : distSq prev curr = dx ^ 2 + dy ^ 2 := by
      rw [distSq, hdx, hdy]; ring
    have : dx ^ 2 + dy ^ 2 < spacing ^ 2 := lt_of_not_le hc
    have hsq : spacing ^ 2 ≤ (2 * spacing) ^ 2 := by nlinarith [sq_nonneg spacing]
    rw [hd]; linarith

/-- Chaining `interpBetween_chain` along the whole polyline. -/
theorem resampleGo_chain (spacing : ℚ) (hsp : 0 < spacing) :
    ∀ (rest : List Point) (prev : Point),
      List.Chain' (fun a b => distSq a b < (2 * spacing) ^ 2)
        (prev :: resampleGo spacing prev rest) := by
  intro rest
  induction rest with
  | nil => intro prev; simp [resampleGo]
  | cons curr rest' ih =>
      intro prev
      rw [resampleGo, ← List.cons_append]
      rw [List.chain'_append]
      have h1 := interpBetween_chain spacing hsp prev curr
      rw [show prev :: (interpBetween prev curr spacing ++ [curr]) =
            (prev :: interpBetween prev curr spacing) ++ [curr] from rfl,
          List.chain'_append] at h1
      refine ⟨h1.1, ih curr, ?_⟩
      intro x hx y hy
      simp only [List.head?_cons, Option.mem_def, Option.some.injEq] at hy
      subst hy
      exact h1.2.2 x hx curr (by simp)

/-- **C2 (amended).** For every point list and positive spacing, the
output of `resamplePoints` contains the original points as an
order-preserving subsequence, and every two consecutive output points
(with no exception) are strictly closer than **twice** the spacing.  (The
claimed bound of one spacing fails: `steps = ⌊dist/spacing⌋` divides a
gap of e.g. `7` with spacing `5` into `1` step of length `7 > 5`; see the
counterexample.) -/
theorem resamplePoints_spec (points : List Point) (spacing : ℚ) (hsp : 0 < spacing) :
    List.Sublist points (resamplePoints points spacing) ∧
      List.Chain' (fun a b => distSq a b < (2 * spacing) ^ 2)
        (resamplePoints points spacing) := by
  match points with
  | [] => exact ⟨List.Sublist.refl _, List.chain'_nil⟩
  | [p] => exact ⟨List.Sublist.refl _, List.chain'_singleton _⟩
  | p :: q :: rest =>
      rw [show resamplePoints (p :: q :: rest) spacing =
            p :: resampleGo spacing p (q :: rest) from rfl]
      exact ⟨(resampleGo_sublist spacing (q :: rest) p).cons₂ p,
        resampleGo_chain spacing hsp (q :: rest) p⟩

/-- Witness for the **C2** theorem at spacing `5` on a concrete
three-point polyline. -/
theorem resamplePoints_spec_witness :
    (0 : ℚ) < 5 ∧
      (List.Sublist [(⟨0, 0⟩ : Point), ⟨7, 0⟩, ⟨14, 0⟩]
          (resamplePoints [⟨0, 0⟩, ⟨7, 0⟩, ⟨14, 0⟩] 5) ∧
        List.Chain' (fun a b => distSq a b < (2 * 5) ^ 2)
          (resamplePoints [⟨0, 0⟩, ⟨7, 0⟩, ⟨14, 0⟩] 5)) :=
  ⟨by norm_num, resamplePoints_spec [⟨0, 0⟩, ⟨7, 0⟩, ⟨14, 0⟩] 5 (by norm_num)⟩

/-- **C2, counterexample to the claim as stated.**  On
`[(0,0), (7,0), (14,0)]` with spacing `5`, `resamplePoints` inserts
nothing (`steps = ⌊7/5⌋ = 1`), so the first two consecutive output points
are `7 > 5` apart even though they are not the final pair; the claimed
"no two consecutive output points exceed the spacing (except possibly the
final pair)" is false. -/
theorem resamplePoints_claim_counterexample :
    ¬ (List.Sublist [(⟨0, 0⟩ : Point), ⟨7, 0⟩, ⟨14, 0⟩]
          (resamplePoints [⟨0, 0⟩, ⟨7, 0⟩, ⟨14, 0⟩] 5) ∧
        ∀ i, i + 2 < (resamplePoints [(⟨0, 0⟩ : Point), ⟨7, 0⟩, ⟨14, 0⟩] 5).length →
          distSq ((resamplePoints [(⟨0, 0⟩ : Point), ⟨7, 0⟩, ⟨14, 0⟩] 5).getD i default)
              ((resamplePoints [(⟨0, 0⟩ : Point), ⟨7, 0⟩, ⟨14, 0⟩] 5).getD (i + 1) default) ≤
            5 ^ 2) := by
  have hfl : ⌊(49 : ℚ) / 25⌋ = 1 := by
    rw [Int.floor_eq_iff]
    norm_num
  have hi : interpBetween ⟨0, 0⟩ ⟨7, 0⟩ 5 = ([] : List Point) := by
    rw [interpBetween]
    norm_num [hfl]
  have hi2 : interpBetween ⟨7, 0⟩ ⟨14, 0⟩ 5 = ([] : List Point) := by
    rw [interpBetween]
    norm_num [hfl]
  have heval : resamplePoints [(⟨0, 0⟩ : Point), ⟨7, 0⟩, ⟨14, 0⟩] 5 =
      [⟨0, 0⟩, ⟨7, 0⟩, ⟨14, 0⟩] := by
    rw [show resamplePoints [(⟨0, 0⟩ : Point), ⟨7, 0⟩, ⟨14, 0⟩] 5 =
          ⟨0, 0⟩ :: resampleGo 5 ⟨0, 0⟩ [⟨7, 0⟩, ⟨14, 0⟩] from rfl,
        resampleGo, resampleGo, resampleGo, hi, hi2]
    rfl
  intro hcl
  have h0 := hcl.2 0 (by rw [heval]; norm_num)
  rw [heval] at h0
  simp only [List.getD, List.get?_eq_getElem?] at h0
  norm_num [distSq] at h0

/-!
### Kept-run lemmas (towards C1)
-/

/-- Bounded-length workhorse for `keptRuns` induction: concatenating the
kept runs yields exactly the non-erased points in order. -/
theorem keptRuns_flatten_aux (erased : Point → Bool) :
    ∀ (n : ℕ) (pts : List Point), pts.length ≤ n →
      (keptRuns erased pts).flatten = pts.filter (fun p => !erased p) := by
  intro n
  induction n with
  | zero =>
      intro pts h
      have hnil : pts = [] := List.length_eq_zero.mp (Nat.le_zero.mp h)
      subst hnil
      simp [keptRuns]
  | succ n ih =>
      intro pts h
      match pts with
      | [] => simp [keptRuns]
      | p :: rest =>
          rw [keptRuns]
          by_cases hp : erased p = true
          · rw [if_pos hp, List.filter_cons_of_neg (by simp [hp])]
            exact ih rest (by simpa using Nat.succ_le_succ_iff.mp h)
          · have hp' : erased p = false := Bool.eq_false_iff.mpr hp
            rw [if_neg hp, List.filter_cons_of_pos (by simp [hp'])]
            have hdrop : (rest.dropWhile (fun q => !erased q)).length ≤ n := by
              have h1 := (List.dropWhile_suffix
                (l := rest) (fun q => !erased q)).sublist.length_le
              have h2 : rest.length ≤ n := by simpa using Nat.succ_le_succ_iff.mp h
              omega
            rw [List.flatten_cons, ih _ hdrop]
            have hsplit : rest.filter (fun p => !erased p) =
                rest.takeWhile (fun q => !erased q) ++
                  (rest.dropWhile (fun q => !erased q)).filter (fun p => !erased p) := by
              conv_lhs => rw [← List.takeWhile_append_dropWhile
                (p := fun q => !erased q) (l := rest)]
              rw [List.filter_append]
              congr 1
              exact List.filter_eq_self.mpr (fun a ha => by
                simpa using List.mem_takeWhile_imp (p := fun q => !erased q) ha)
            rw [List.cons_append, ← hsplit]

/-- Concatenating the kept runs yields exactly the non-erased points. -/
theorem keptRuns_flatten (erased : Point → Bool) (pts : List Point) :
    (keptRuns erased pts).flatten = pts.filter (fun p => !erased p) :=
  keptRuns_flatten_aux erased pts.length pts le_rfl

/-- Every kept run is nonempty and consists of non-erased points only. -/
theorem keptRuns_runs_aux (erased : Point → Bool) :
    ∀ (n : ℕ) (pts : List Point), pts.length ≤ n →
      ∀ r ∈ keptRuns erased pts, r ≠ [] ∧ ∀ p ∈ r, erased p = false := by
  intro n
  induction n with
  | zero =>
      intro pts h
      have hnil : pts = [] := List.length_eq_zero.mp (Nat.le_zero.mp h)
      subst hnil
      simp [keptRuns]
  | succ n ih =>
      intro pts h
      match pts with
      | [] => simp [keptRuns]
      | p :: rest =>
          rw [keptRuns]
          by_cases hp : erased p = true
          · rw [if_pos hp]
            exact ih rest (by simpa using Nat.succ_le_succ_iff.mp h)
          · have hp' : erased p = false := Bool.eq_false_iff.mpr hp
            rw [if_neg hp]
            intro r hr
            rcases List.mem_cons.mp hr with hr1 | hr2
            · subst hr1
              refine ⟨by simp, ?_⟩
              intro x hx
              rcases List.mem_cons.mp hx with hx1 | hx2
              · subst hx1; exact hp'
              · have := List.mem_takeWhile_imp hx2
                simpa using this
            · have hdrop : (rest.dropWhile (fun q => !erased q)).length ≤ n := by
                have h1 := (List.dropWhile_suffix
                  (l := rest) (fun q => !erased q)).sublist.length_le
                have h2 : rest.length ≤ n := by simpa using Nat.succ_le_succ_iff.mp h
                omega
              exact ih _ hdrop r hr2

/-- The `splitLoop` accumulator characterisation: starting from segment
`cur` and fragment counter `k`, the loop appends one fragment per kept
run, numbering fragment ids consecutively from `k`. -/
theorem splitLoop_spec (template : Stroke) (freshId : ℕ → ℕ) (E : List Point) (w : ℚ) :
    ∀ (pts cur : List Point) (acc : List Stroke) (k : ℕ),
      splitLoop template freshId E w pts cur acc k =
        acc ++
          (((if cur = [] then
                keptRuns (fun p => isPointNearStroke p.x p.y E (w / 2)) pts
              else
                (cur ++ pts.takeWhile (fun q => !isPointNearStroke q.x q.y E (w / 2))) ::
                  keptRuns (fun p => isPointNearStroke p.x p.y E (w / 2))
                    (pts.dropWhile (fun q => !isPointNearStroke q.x q.y E (w / 2)))).enumFrom
              k).map
            (fun pr => mkFragment template (freshId pr.1) pr.2)) := by
  intro pts
  induction pts with
  | nil =>
      intro cur acc k
      rw [splitLoop]
      by_cases hcur : cur = []
      · rw [if_neg (by simpa using hcur), if_pos hcur]
        simp [keptRuns]
      · rw [if_pos hcur, if_neg hcur]
        simp [keptRuns]
  | cons p rest ih =>
      intro cur acc k
      rw [splitLoop]
      by_cases hp : isPointNearStroke p.x p.y E (w / 2) = true
      · rw [if_pos hp]
        by_cases hcur : cur = []
        · subst hcur
          rw [if_neg (by simp), ih, if_pos rfl, if_pos rfl, keptRuns, if_pos hp]
        · rw [if_pos hcur, ih, if_pos rfl, if_neg hcur,
            List.takeWhile_cons_of_neg (by simp [hp]),
            List.dropWhile_cons_of_neg (by simp [hp]),
            keptRuns, if_pos hp, List.append_nil, List.enumFrom_cons, List.map_cons,
            List.append_assoc, List.singleton_append]
      · have hp' : isPointNearStroke p.x p.y E (w / 2) = false := Bool.eq_false_iff.mpr hp
        rw [if_neg (by simp [hp']), ih, if_neg (by simp)]
        by_cases hcur : cur = []
        · subst hcur
          rw [if_pos rfl, keptRuns, if_neg (by simp [hp'])]
          simp only [List.nil_append, List.singleton_append]
        · rw [if_neg hcur,
            List.takeWhile_cons_of_pos (by simp [hp']),
            List.dropWhile_cons_of_pos (by simp [hp']),
            List.append_assoc, List.singleton_append]

/-- `resamplePoints` of a nonempty list is nonempty. -/
theorem resamplePoints_ne_nil (points : List Point) (spacing : ℚ)
    (h : points ≠ []) : resamplePoints points spacing ≠ [] := by
  match points with
  | [] => exact absurd rfl h
  | [p] => simp [resamplePoints]
  | p :: q :: rest => simp [resamplePoints]

/-- **C1 (amended).** Provided the stroke and the eraser path are
nonempty and their padded bounding boxes intersect (otherwise the source
returns the original stroke untouched — see the counterexample),
`splitStroke` partitions the resampled points of the stroke: fragments
are exactly the maximal contiguous runs of non-erased resampled points in
original order (runs of length ≥ 1 survive), their concatenation is the
list of non-erased resampled points, no erased point lies in any
fragment, and each fragment carries the next fresh id and the original
tool/color/size/feather with `isComplete = true`. -/
theorem splitStroke_partition_spec (freshId : ℕ → ℕ) (S : Stroke)
    (E : List Point) (w : ℚ)
    (hS : S.points ≠ []) (hE : E ≠ [])
    (hbox : doBoxesIntersect (getBoundingBox S.points (S.size / 2))
        (getBoundingBox E (w / 2)) = true) :
    ((splitStroke freshId S E w).map (fun f => f.points)).flatten =
        (resamplePoints S.points (max 1 (w / 8))).filter
          (fun p => !isPointNearStroke p.x p.y E (w / 2)) ∧
    (splitStroke freshId S E w).map (fun f => f.points) =
        keptRuns (fun p => isPointNearStroke p.x p.y E (w / 2))
          (resamplePoints S.points (max 1 (w / 8))) ∧
    (∀ p ∈ resamplePoints S.points (max 1 (w / 8)),
        isPointNearStroke p.x p.y E (w / 2) = true →
          ∀ f ∈ splitStroke freshId S E w, p ∉ f.points) ∧
    (splitStroke freshId S E w).map (fun f => f.id) =
        (List.range (splitStroke freshId S E w).length).map freshId ∧
    (∀ f ∈ splitStroke freshId S E w,
        f.tool = S.tool ∧ f.color = S.color ∧ f.size = S.size ∧
          f.feather = S.feather ∧ f.isComplete = some true) := by
  have heval : splitStroke freshId S E w =
      ((keptRuns (fun p => isPointNearStroke p.x p.y E (w / 2))
            (resamplePoints S.points (max 1 (w / 8)))).enumFrom 0).map
        (fun pr => mkFragment S (freshId pr.1) pr.2) := by
    rw [splitStroke, if_neg hS, if_neg hE, if_neg (by simp [hbox]),
      if_neg (resamplePoints_ne_nil S.points _ hS), splitLoop_spec, if_pos rfl]
    rfl
  set erased : Point → Bool := fun p => isPointNearStroke p.x p.y E (w / 2) with herased
  set resampled := resamplePoints S.points (max 1 (w / 8)) with hresampled
  have hpoints : (splitStroke freshId S E w).map (fun f => f.points) =
      keptRuns erased resampled := by
    rw [heval, List.map_map]
    have : ((fun f => f.points) ∘ fun pr : ℕ × List Point =>
        mkFragment S (freshId pr.1) pr.2) = Prod.snd := by
      funext pr
      simp [mkFragment]
    rw [this, List.enumFrom_map_snd]
  have hruns := keptRuns_runs_aux erased resampled.length resampled le_rfl
  refine ⟨?_, hpoints, ?_, ?_, ?_⟩
  · rw [hpoints, keptRuns_flatten]
  · intro p _ hpe f hf
    intro hpf
    have hfp : f.points ∈ keptRuns erased resampled := by
      rw [← hpoints]
      exact List.mem_map_of_mem (fun f => f.points) hf
    have := (hruns f.points hfp).2 p hpf
    have hpe' : erased p = true := by rw [herased]; simpa using hpe
    rw [hpe'] at this
    exact Bool.noConfusion this
  · rw [heval, List.map_map]
    have hlen : (((keptRuns erased resampled).enumFrom 0).map
        (fun pr => mkFragment S (freshId pr.1) pr.2)).length =
        (keptRuns erased resampled).length := by
      simp
    rw [hlen]
    have : ((fun f => f.id) ∘ fun pr : ℕ × List Point =>
        mkFragment S (freshId pr.1) pr.2) = (fun pr : ℕ × List Point => freshId pr.1) := by
      funext pr
      simp [mkFragment]
    rw [this]
    have hcomp : (fun pr : ℕ × List Point => freshId pr.1) =
        freshId ∘ Prod.fst := rfl
    rw [hcomp, ← List.map_map, List.enumFrom_map_fst, ← List.range_eq_range']
  · intro f hf
    rw [heval] at hf
    rcases List.mem_map.mp hf with ⟨pr, _, hpr⟩
    subst hpr
    simp [mkFragment]

/-- Witness for the **C1** theorem: an eraser dot over a one-point pen
stroke, with intersecting padded boxes. -/
theorem splitStroke_partition_spec_witness :
    (penStrokeA.points ≠ [] ∧ ([(⟨1, 2⟩ : Point)] : List Point) ≠ [] ∧
      doBoxesIntersect (getBoundingBox penStrokeA.points (penStrokeA.size / 2))
        (getBoundingBox [⟨1, 2⟩] ((8 : ℚ) / 2)) = true) ∧
    (((splitStroke (fun k => 1000 + k) penStrokeA [⟨1, 2⟩] 8).map
          (fun f => f.points)).flatten =
        (resamplePoints penStrokeA.points (max 1 ((8 : ℚ) / 8))).filter
          (fun p => !isPointNearStroke p.x p.y [⟨1, 2⟩] ((8 : ℚ) / 2)) ∧
      (splitStroke (fun k => 1000 + k) penStrokeA [⟨1, 2⟩] 8).map (fun f => f.points) =
        keptRuns (fun p => isPointNearStroke p.x p.y [⟨1, 2⟩] ((8 : ℚ) / 2))
          (resamplePoints penStrokeA.points (max 1 ((8 : ℚ) / 8))) ∧
      (∀ p ∈ resamplePoints penStrokeA.points (max 1 ((8 : ℚ) / 8)),
          isPointNearStroke p.x p.y [⟨1, 2⟩] ((8 : ℚ) / 2) = true →
            ∀ f ∈ splitStroke (fun k => 1000 + k) penStrokeA [⟨1, 2⟩] 8, p ∉ f.points) ∧
      (splitStroke (fun k => 1000 + k) penStrokeA [⟨1, 2⟩] 8).map (fun f => f.id) =
        (List.range (splitStroke (fun k => 1000 + k) penStrokeA [⟨1, 2⟩] 8).length).map
          (fun k => 1000 + k) ∧
      (∀ f ∈ splitStroke (fun k => 1000 + k) penStrokeA [⟨1, 2⟩] 8,
          f.tool = penStrokeA.tool ∧ f.color = penStrokeA.color ∧
            f.size = penStrokeA.size ∧ f.feather = penStrokeA.feather ∧
            f.isComplete = some true)) := by
  have h1 : penStrokeA.points ≠ [] := by simp [penStrokeA]
  have h2 : ([(⟨1, 2⟩ : Point)] : List Point) ≠ [] := by simp
  have h3 : doBoxesIntersect (getBoundingBox penStrokeA.points (penStrokeA.size / 2))
      (getBoundingBox [⟨1, 2⟩] ((8 : ℚ) / 2)) = true := by
    rw [penStrokeA]
    simp only [getBoundingBox, doBoxesIntersect, List.foldl]
    norm_num
  exact ⟨⟨h1, h2, h3⟩,
    splitStroke_partition_spec (fun k => 1000 + k) penStrokeA [⟨1, 2⟩] 8 h1 h2 h3⟩

/-- **C1, counterexample to the claim as stated.**  When the padded
bounding boxes do not intersect (here: an eraser at `(100,100)` far from
the stroke), `splitStroke` returns the original stroke object itself —
original id, original (un-resampled) point list — so the universally
quantified claim (resampled-point partition, fresh fragment ids) fails
at this input: the single returned fragment keeps id `9` instead of the
fresh id `1000`. -/
theorem splitStroke_claim_counterexample :
    ¬ (((splitStroke (fun k => 1000 + k) penStrokeB [⟨100, 100⟩] 8).map
            (fun f => f.points)).flatten =
          (resamplePoints penStrokeB.points (max 1 ((8 : ℚ) / 8))).filter
            (fun p => !isPointNearStroke p.x p.y [⟨100, 100⟩] ((8 : ℚ) / 2)) ∧
        (splitStroke (fun k => 1000 + k) penStrokeB [⟨100, 100⟩] 8).map (fun f => f.points) =
          keptRuns (fun p => isPointNearStroke p.x p.y [⟨100, 100⟩] ((8 : ℚ) / 2))
            (resamplePoints penStrokeB.points (max 1 ((8 : ℚ) / 8))) ∧
        (∀ p ∈ resamplePoints penStrokeB.points (max 1 ((8 : ℚ) / 8)),
            isPointNearStroke p.x p.y [⟨100, 100⟩] ((8 : ℚ) / 2) = true →
              ∀ f ∈ splitStroke (fun k => 1000 + k) penStrokeB [⟨100, 100⟩] 8,
                p ∉ f.points) ∧
        (splitStroke (fun k => 1000 + k) penStrokeB [⟨100, 100⟩] 8).map (fun f => f.id) =
          (List.range (splitStroke (fun k => 1000 + k) penStrokeB [⟨100, 100⟩] 8).length).map
            (fun k => 1000 + k) ∧
        (∀ f ∈ splitStroke (fun k => 1000 + k) penStrokeB [⟨100, 100⟩] 8,
            f.tool = penStrokeB.tool ∧ f.color = penStrokeB.color ∧
              f.size = penStrokeB.size ∧ f.feather = penStrokeB.feather ∧
              f.isComplete = some true)) := by
  intro h
  have hbox : doBoxesIntersect (getBoundingBox penStrokeB.points (penStrokeB.size / 2))
      (getBoundingBox [⟨100, 100⟩] ((8 : ℚ) / 2)) = false := by
    rw [penStrokeB]
    simp only [getBoundingBox, doBoxesIntersect, List.foldl]
    norm_num [min_def, max_def]
  have heval : splitStroke (fun k => 1000 + k) penStrokeB [⟨100, 100⟩] 8 = [penStrokeB] := by
    rw [splitStroke, if_neg (by simp [penStrokeB]), if_neg (by simp),
      if_pos (by simp [hbox])]
  have h4 := h.2.2.2.1
  rw [heval] at h4
  simp [penStrokeB, List.range_succ] at h4

/-- Fragments produced by `splitStroke` keep the original stroke's tool
(the eraser gesture's own tool never appears among them). -/
theorem splitStroke_tool_eq (freshId : ℕ → ℕ) (S : Stroke) (E : List Point) (w : ℚ) :
    ∀ f ∈ splitStroke freshId S E w, f.tool = S.tool := by
  intro f hf
  simp only [splitStroke] at hf
  split_ifs at hf
  all_goals
    first
    | (rw [List.mem_singleton] at hf; subst hf; rfl)
    | (exact absurd hf (by simp))
    | (rw [splitLoop_spec, if_pos rfl, List.nil_append] at hf
       rcases List.mem_map.mp hf with ⟨pr, _, hpr⟩
       subst hpr
       rfl)

/-- **C5.** For a completed eraser gesture, the commit handler never
emits an insertion of the eraser stroke itself; it only emits deletions
of modified non-background, non-eraser strokes and insertions of their
`splitStroke` fragments, and it emits nothing when no stroke was
modified. -/
theorem handleStrokeComplete_eraser_spec (freshIds : ℕ → ℕ → ℕ)
    (strokes : List Stroke) (eraser : Stroke) (h : eraser.tool = Tool.eraser) :
    (∀ s, SyncOp.addOp s ∈ handleStrokeComplete freshIds strokes eraser → s ≠ eraser) ∧
    (∀ i, SyncOp.deleteOp i ∈ handleStrokeComplete freshIds strokes eraser →
      ∃ iex ∈ strokes.enum, iex.2.id = i ∧ iex.2.tool ≠ Tool.background ∧
        iex.2.tool ≠ Tool.eraser ∧
        strokeModified (freshIds iex.1) iex.2 eraser.points eraser.size = true) ∧
    (∀ s, SyncOp.addOp s ∈ handleStrokeComplete freshIds strokes eraser →
      ∃ iex ∈ strokes.enum, iex.2.tool ≠ Tool.background ∧ iex.2.tool ≠ Tool.eraser ∧
        strokeModified (freshIds iex.1) iex.2 eraser.points eraser.size = true ∧
        s ∈ splitStroke (freshIds iex.1) iex.2 eraser.points eraser.size) ∧
    ((∀ iex ∈ strokes.enum, iex.2.tool ≠ Tool.background → iex.2.tool ≠ Tool.eraser →
        strokeModified (freshIds iex.1) iex.2 eraser.points eraser.size = false) →
      handleStrokeComplete freshIds strokes eraser = []) := by
  have hadd : ∀ s, SyncOp.addOp s ∈ handleStrokeComplete freshIds strokes eraser →
      ∃ iex ∈ strokes.enum, iex.2.tool ≠ Tool.background ∧ iex.2.tool ≠ Tool.eraser ∧
        strokeModified (freshIds iex.1) iex.2 eraser.points eraser.size = true ∧
        s ∈ splitStroke (freshIds iex.1) iex.2 eraser.points eraser.size := by
    intro s hs
    simp only [handleStrokeComplete] at hs
    rw [if_pos h] at hs
    split_ifs at hs
    · simp at hs
    · rw [List.mem_append] at hs
      rcases hs with hs | hs
      · rcases List.mem_map.mp hs with ⟨pr, _, hpr⟩
        exact absurd hpr (by simp)
      · rcases List.mem_map.mp hs with ⟨t, ht, hts⟩
        have hts' : t = s := by simpa using hts
        subst hts'
        rcases List.mem_flatten.mp ht with ⟨l, hl, htl⟩
        rcases List.mem_map.mp hl with ⟨pr, hpr, hprl⟩
        subst hprl
        rcases List.mem_filterMap.mp hpr with ⟨iex, hiex, hfx⟩
        refine ⟨iex, hiex, ?_⟩
        by_cases hb : iex.2.tool = Tool.background ∨ iex.2.tool = Tool.eraser
        · rw [if_pos hb] at hfx; exact absurd hfx (by simp)
        · rw [if_neg hb] at hfx
          push_neg at hb
          by_cases hm : strokeModified (freshIds iex.1) iex.2 eraser.points eraser.size = true
          · rw [if_pos hm] at hfx
            have hfx' := Option.some.inj hfx
            refine ⟨hb.1, hb.2, hm, ?_⟩
            rw [← hfx'] at htl
            exact htl
          · rw [if_neg hm] at hfx; exact absurd hfx (by simp)
  refine ⟨?_, ?_, hadd, ?_⟩
  · intro s hs
    rcases hadd s hs with ⟨iex, _, _, hne, _, hsp⟩
    have hst : s.tool = iex.2.tool := splitStroke_tool_eq _ _ _ _ s hsp
    intro hse
    subst hse
    rw [h] at hst
    exact hne hst.symm
  · intro i hi
    simp only [handleStrokeComplete] at hi
    rw [if_pos h] at hi
    split_ifs at hi
    · simp at hi
    · rw [List.mem_append] at hi
      rcases hi with hi | hi
      · rcases List.mem_map.mp hi with ⟨pr, hpr, hpri⟩
        rcases List.mem_filterMap.mp hpr with ⟨iex, hiex, hfx⟩
        refine ⟨iex, hiex, ?_⟩
        by_cases hb : iex.2.tool = Tool.background ∨ iex.2.tool = Tool.eraser
        · rw [if_pos hb] at hfx; exact absurd hfx (by simp)
        · rw [if_neg hb] at hfx
          push_neg at hb
          by_cases hm : strokeModified (freshIds iex.1) iex.2 eraser.points eraser.size = true
          · rw [if_pos hm] at hfx
            have hfx' := Option.some.inj hfx
            have hid : pr.1.id = i := by simpa using hpri
            refine ⟨?_, hb.1, hb.2, hm⟩
            rw [← hid, ← hfx']
          · rw [if_neg hm] at hfx; exact absurd hfx (by simp)
      · rcases List.mem_map.mp hi with ⟨t, _, hts⟩
        exact absurd hts (by simp)
  · intro hall
    simp only [handleStrokeComplete]
    rw [if_pos h]
    have hempty : strokes.enum.filterMap (fun iex : ℕ × Stroke =>
        if iex.2.tool = Tool.background ∨ iex.2.tool = Tool.eraser then none
        else if strokeModified (freshIds iex.1) iex.2 eraser.points eraser.size then
          some (iex.2, splitStroke (freshIds iex.1) iex.2 eraser.points eraser.size)
        else none) = [] := by
      rw [List.filterMap_eq_nil_iff]
      intro iex hiex
      by_cases hb : iex.2.tool = Tool.background ∨ iex.2.tool = Tool.eraser
      · rw [if_pos hb]
      · rw [if_neg hb]
        push_neg at hb
        rw [if_neg (by simp [hall iex hiex hb.1 hb.2])]
    simp [hempty]

/-- Witness for the **C5** theorem: erasing over one pen stroke and one
background stroke emits exactly the delete of the pen stroke and the
inserts of its fragments, and never the eraser itself. -/
theorem handleStrokeComplete_eraser_spec_witness :
    (⟨42, Tool.eraser, "#000000", 8, none, [⟨1, 2⟩], 20, none, some true⟩ : Stroke).tool =
        Tool.eraser ∧
    ((∀ s, SyncOp.addOp s ∈ handleStrokeComplete (fun i k => 100 * i + k) [penStrokeA]
          ⟨42, Tool.eraser, "#000000", 8, none, [⟨1, 2⟩], 20, none, some true⟩ →
        s ≠ ⟨42, Tool.eraser, "#000000", 8, none, [⟨1, 2⟩], 20, none, some true⟩) ∧
      (∀ i, SyncOp.deleteOp i ∈ handleStrokeComplete (fun i k => 100 * i + k) [penStrokeA]
          ⟨42, Tool.eraser, "#000000", 8, none, [⟨1, 2⟩], 20, none, some true⟩ →
        ∃ iex ∈ ([penStrokeA] : List Stroke).enum, iex.2.id = i ∧
          iex.2.tool ≠ Tool.background ∧ iex.2.tool ≠ Tool.eraser ∧
          strokeModified (fun k => 100 * iex.1 + k) iex.2 [⟨1, 2⟩] 8 = true) ∧
      (∀ s, SyncOp.addOp s ∈ handleStrokeComplete (fun i k => 100 * i + k) [penStrokeA]
          ⟨42, Tool.eraser, "#000000", 8, none, [⟨1, 2⟩], 20, none, some true⟩ →
        ∃ iex ∈ ([penStrokeA] : List Stroke).enum, iex.2.tool ≠ Tool.background ∧
          iex.2.tool ≠ Tool.eraser ∧
          strokeModified (fun k => 100 * iex.1 + k) iex.2 [⟨1, 2⟩] 8 = true ∧
          s ∈ splitStroke (fun k => 100 * iex.1 + k) iex.2 [⟨1, 2⟩] 8) ∧
      ((∀ iex ∈ ([penStrokeA] : List Stroke).enum, iex.2.tool ≠ Tool.background →
          iex.2.tool ≠ Tool.eraser →
          strokeModified (fun k => 100 * iex.1 + k) iex.2 [⟨1, 2⟩] 8 = false) →
        handleStrokeComplete (fun i k => 100 * i + k) [penStrokeA]
          ⟨42, Tool.eraser, "#000000", 8, none, [⟨1, 2⟩], 20, none, some true⟩ = [])) :=
  ⟨rfl, handleStrokeComplete_eraser_spec (fun i k => 100 * i + k) [penStrokeA]
    ⟨42, Tool.eraser, "#000000", 8, none, [⟨1, 2⟩], 20, none, some true⟩ rfl⟩

/-- Witness for the **C6** theorem: a dot at the origin and a far-away
eraser path have disjoint padded boxes, and the split is a no-op. -/
theorem splitStroke_bbox_noop_witness :
    doBoxesIntersect
        (getBoundingBox penStrokeA.points (penStrokeA.size / 2))
        (getBoundingBox [⟨100, 100⟩] ((8 : ℚ) / 2)) = false ∧
    splitStroke (fun k => 1000 + k) penStrokeA [⟨100, 100⟩] 8 = [penStrokeA] := by
  have hbox : doBoxesIntersect
      (getBoundingBox penStrokeA.points (penStrokeA.size / 2))
      (getBoundingBox [⟨100, 100⟩] ((8 : ℚ) / 2)) = false := by
    rw [penStrokeA]
    simp only [getBoundingBox, doBoxesIntersect, List.foldl]
    norm_num
  exact ⟨hbox, splitStroke_bbox_noop (fun k => 1000 + k) penStrokeA [⟨100, 100⟩] 8 hbox⟩

/-!
### Flood-fill lemmas (towards C3, C7, C10)
-/

/-- Elements of a conditional push: either the guard held and the element
is the pushed one, or it was already below. -/
theorem mem_condPush {c : Prop} [Decidable c] {a : ℕ × ℕ} {l : List (ℕ × ℕ)} {p : ℕ × ℕ}
    (hp : p ∈ (if c then a :: l else l)) : (c ∧ p = a) ∨ p ∈ l := by
  split_ifs at hp with hc
  · rcases List.mem_cons.mp hp with h | h
    · exact Or.inl ⟨hc, h⟩
    · exact Or.inr h
  · exact Or.inr hp

/-- A conditional push preserves the elements below. -/
theorem mem_condPush_of_mem {c : Prop} [Decidable c] {a : ℕ × ℕ} {l : List (ℕ × ℕ)}
    {p : ℕ × ℕ} (hp : p ∈ l) : p ∈ (if c then a :: l else l) := by
  split_ifs
  · exact List.mem_cons_of_mem _ hp
  · exact hp

/-- `pushNeighbors` grows the stack by at most four entries. -/
theorem pushNeighbors_length (img : Raster) (x y : ℕ) (rest : List (ℕ × ℕ)) :
    (pushNeighbors img x y rest).length ≤ rest.length + 4 := by
  simp only [pushNeighbors]
  split_ifs <;> first
  | (simp only [List.length_cons]; omega)
  | omega

/-- The stack below the pushes survives `pushNeighbors`. -/
theorem mem_pushNeighbors_of_mem (img : Raster) (x y : ℕ) (rest : List (ℕ × ℕ))
    {p : ℕ × ℕ} (hp : p ∈ rest) : p ∈ pushNeighbors img x y rest := by
  simp only [pushNeighbors]
  exact mem_condPush_of_mem (mem_condPush_of_mem (mem_condPush_of_mem
    (mem_condPush_of_mem hp)))

/-- Every entry of `pushNeighbors img x y rest` is either an old entry or
an in-bounds pixel (given `(x, y)` is in bounds). -/
theorem pushNeighbors_bounds (img : Raster) (x y : ℕ) (rest : List (ℕ × ℕ))
    (hx : x < img.width) (hy : y < img.height) :
    ∀ p ∈ pushNeighbors img x y rest, p ∈ rest ∨ (p.1 < img.width ∧ p.2 < img.height) := by
  intro p hp
  simp only [pushNeighbors] at hp
  rcases mem_condPush hp with ⟨h1, rfl⟩ | hp
  · exact Or.inr ⟨hx, by omega⟩
  rcases mem_condPush hp with ⟨h2, rfl⟩ | hp
  · exact Or.inr ⟨hx, h2⟩
  rcases mem_condPush hp with ⟨h3, rfl⟩ | hp
  · exact Or.inr ⟨by omega, hy⟩
  rcases mem_condPush hp with ⟨h4, rfl⟩ | hp
  · exact Or.inr ⟨h4, hy⟩
  · exact Or.inl hp

/-- For an interior `(x, y)`, all four of its 4-neighbors are pushed. -/
theorem mem_pushNeighbors_of_adj (img : Raster) (x y : ℕ) (rest : List (ℕ × ℕ))
    (hx0 : 0 < x) (hx1 : x < img.width - 1) (hy0 : 0 < y) (hy1 : y < img.height - 1) :
    ∀ q : ℕ × ℕ, adjB (x, y) q = true → q ∈ pushNeighbors img x y rest := by
  intro q hq
  obtain ⟨qa, qb⟩ := q
  have hg1 : x + 1 < img.width := by omega
  have hg2 : 1 ≤ x := hx0
  have hg3 : y + 1 < img.height := by omega
  have hg4 : 1 ≤ y := hy0
  simp only [pushNeighbors, if_pos hg1, if_pos hg2, if_pos hg3, if_pos hg4]
  simp only [adjB, Bool.or_eq_true, Bool.and_eq_true, decide_eq_true_eq] at hq
  rcases hq with ⟨h1, h2 | h2⟩ | ⟨h1, h2 | h2⟩
  · have : qa = x ∧ qb = y + 1 := by omega
    simp [this.1, this.2]
  · have : qa = x ∧ qb = y - 1 := by omega
    simp [this.1, this.2]
  · have : qa = x + 1 ∧ qb = y := by omega
    simp [this.1, this.2]
  · have : qa = x - 1 ∧ qb = y := by omega
    simp [this.1, this.2]

/-- Flat pixel indices are injective on in-bounds pixels. -/
theorem pixelIndex_inj (W : ℕ) {p q : ℕ × ℕ} (hp : p.1 < W) (hq : q.1 < W)
    (h : p.2 * W + p.1 = q.2 * W + q.1) : p = q := by
  obtain ⟨pa, pb⟩ := p
  obtain ⟨qa, qb⟩ := q
  simp only at hp hq h
  have hW : 0 < W := by omega
  have ha : pa = qa := by
    have h1 : (pb * W + pa) % W = pa := by
      rw [Nat.add_comm, Nat.add_mul_mod_self_right, Nat.mod_eq_of_lt hp]
    have h2 : (qb * W + qa) % W = qa := by
      rw [Nat.add_comm, Nat.add_mul_mod_self_right, Nat.mod_eq_of_lt hq]
    rw [← h1, ← h2, h]
  subst ha
  have hb : pb = qb := by
    have h2 : pb * W = qb * W := by omega
    exact Nat.eq_of_mul_eq_mul_right hW h2
  simp [hb]

/-- A pixel that passed the boundary test is strictly interior. -/
theorem interior_of_not_boundary (img : Raster) (x y : ℕ)
    (h : onBoundary img x y = false) :
    0 < x ∧ x < img.width - 1 ∧ 0 < y ∧ y < img.height - 1 := by
  simp only [onBoundary, Bool.or_eq_false_iff, decide_eq_false_iff_not] at h
  omega

/-- An interior matched pixel's flat index is inside the raster. -/
theorem pixelIndex_lt (img : Raster) (x y : ℕ) (hx : x < img.width)
    (hy : y < img.height) : y * img.width + x < img.width * img.height := by
  have h1 : y * img.width + x < (y + 1) * img.width := by
    rw [Nat.succ_mul]; omega
  have h2 : (y + 1) * img.width ≤ img.height * img.width :=
    Nat.mul_le_mul_right _ hy
  rw [Nat.mul_comm img.width img.height]
  omega

/-- The fuel `floodFuel` used by `getFloodFillRegion` never runs out:
every loop iteration strictly decreases
`stack.length + 5 * (number of unseen raster pixels)`. -/
theorem floodLoop_ne_fuelOut (img : Raster) (tR tG tB tA : ℕ) :
    ∀ (fuel : ℕ) (stack : List (ℕ × ℕ)) (seen : Finset ℕ),
      seen ⊆ Finset.range (img.width * img.height) →
      stack.length + 5 * (img.width * img.height - seen.card) < fuel →
      floodLoop img tR tG tB tA fuel stack seen ≠ none := by
  intro fuel
  induction fuel with
  | zero => intro stack seen _ h; omega
  | succ n ih =>
      intro stack seen hsub h
      match stack with
      | [] => simp [floodLoop]
      | (x, y) :: rest =>
          simp only [floodLoop]
          by_cases hseen : y * img.width + x ∈ seen
          · rw [if_pos hseen]
            refine ih rest seen hsub ?_
            simp only [List.length_cons] at h; omega
          · rw [if_neg hseen]
            by_cases hbd : onBoundary img x y = true
            · rw [if_pos hbd]; simp
            · rw [if_neg hbd]
              have hint := interior_of_not_boundary img x y (Bool.eq_false_iff.mpr hbd)
              have hx : x < img.width := by omega
              have hy : y < img.height := by omega
              have hidx : y * img.width + x < img.width * img.height :=
                pixelIndex_lt img x y hx hy
              by_cases hmc : matchColor img tR tG tB tA x y = true
              · rw [if_pos hmc]
                have hcard : seen.card < img.width * img.height := by
                  have hss : seen ⊂ Finset.range (img.width * img.height) :=
                    (Finset.ssubset_iff_of_subset hsub).mpr
                      ⟨y * img.width + x, Finset.mem_range.mpr hidx, hseen⟩
                  simpa using Finset.card_lt_card hss
                refine ih _ _ ?_ ?_
                · exact Finset.insert_subset_iff.mpr
                    ⟨Finset.mem_range.mpr hidx, hsub⟩
                · have hlen := pushNeighbors_length img x y rest
                  have hcins : (insert (y * img.width + x) seen).card = seen.card + 1 :=
                    Finset.card_insert_of_not_mem hseen
                  rw [hcins]
                  simp only [List.length_cons] at h
                  omega
              · rw [if_neg hmc]
                refine ih rest seen hsub ?_
                simp only [List.length_cons] at h; omega

/-- The completeness/no-leak invariant of the fill loop.  If the loop
terminates by emptying its stack (no boundary hit), then: everything seen
stays in the final region; no stack entry ever sits on the raster
boundary; every interior matched stack entry ends up in the final region;
and the final region is closed under in-bounds 4-neighbors — such a
neighbor is never on the boundary, and is in the region whenever it
matches. -/
theorem floodLoop_no_leak (img : Raster) (tR tG tB tA : ℕ) :
    ∀ (fuel : ℕ) (stack : List (ℕ × ℕ)) (seen : Finset ℕ) (final : Finset ℕ),
      (∀ p ∈ stack, p.1 < img.width ∧ p.2 < img.height) →
      (∀ i ∈ seen, ∃ p : ℕ × ℕ, p.1 < img.width ∧ p.2 < img.height ∧
          i = p.2 * img.width + p.1 ∧ onBoundary img p.1 p.2 = false ∧
          matchColor img tR tG tB tA p.1 p.2 = true) →
      (∀ p : ℕ × ℕ, p.1 < img.width → p.2 < img.height →
          p.2 * img.width + p.1 ∈ seen →
          ∀ q : ℕ × ℕ, adjB p q = true → q.1 < img.width → q.2 < img.height →
            q ∈ stack ∨ q.2 * img.width + q.1 ∈ seen ∨
              (onBoundary img q.1 q.2 = false ∧
                matchColor img tR tG tB tA q.1 q.2 = false)) →
      floodLoop img tR tG tB tA fuel stack seen = some (some final) →
      (seen ⊆ final) ∧
      (∀ p ∈ stack, onBoundary img p.1 p.2 = false) ∧
      (∀ p ∈ stack, matchColor img tR tG tB tA p.1 p.2 = true →
          p.2 * img.width + p.1 ∈ final) ∧
      (∀ p : ℕ × ℕ, p.1 < img.width → p.2 < img.height →
          p.2 * img.width + p.1 ∈ final →
          ∀ q : ℕ × ℕ, adjB p q = true → q.1 < img.width → q.2 < img.height →
            onBoundary img q.1 q.2 = false ∧
              (matchColor img tR tG tB tA q.1 q.2 = true →
                q.2 * img.width + q.1 ∈ final)) := by
  intro fuel
  induction fuel with
  | zero =>
      intro stack seen final _ _ _ hres
      rw [floodLoop] at hres
      exact absurd hres (by simp)
  | succ n ih =>
      intro stack seen final hS1 hS2 hS3 hres
      match stack with
      | [] =>
          rw [floodLoop] at hres
          have hfin : seen = final := by
            simpa using hres
          subst hfin
          refine ⟨le_refl _, by simp, by simp, ?_⟩
          intro p hp1 hp2 hpseen q hadj hq1 hq2
          rcases hS3 p hp1 hp2 hpseen q hadj hq1 hq2 with hq | hq | hq
          · exact absurd hq (by simp)
          · rcases hS2 _ hq with ⟨q0, hq01, hq02, hq0i, hq0b, hq0m⟩
            have : q = q0 := pixelIndex_inj img.width hq1 hq01 hq0i
            subst this
            exact ⟨hq0b, fun _ => hq⟩
          · exact ⟨hq.1, fun hm => absurd hm (by simp [hq.2])⟩
      | (x, y) :: rest =>
          simp only [floodLoop] at hres
          by_cases hseen : y * img.width + x ∈ seen
          · rw [if_pos hseen] at hres
            have hS1' : ∀ p ∈ rest, p.1 < img.width ∧ p.2 < img.height :=
              fun p hp => hS1 p (List.mem_cons_of_mem _ hp)
            have hS3' : ∀ p : ℕ × ℕ, p.1 < img.width → p.2 < img.height →
                p.2 * img.width + p.1 ∈ seen →
                ∀ q : ℕ × ℕ, adjB p q = true → q.1 < img.width → q.2 < img.height →
                  q ∈ rest ∨ q.2 * img.width + q.1 ∈ seen ∨
                    (onBoundary img q.1 q.2 = false ∧
                      matchColor img tR tG tB tA q.1 q.2 = false) := by
              intro p hp1 hp2 hpseen q hadj hq1 hq2
              rcases hS3 p hp1 hp2 hpseen q hadj hq1 hq2 with hq | hq | hq
              · rcases List.mem_cons.mp hq with rfl | hq
                · exact Or.inr (Or.inl hseen)
                · exact Or.inl hq
              · exact Or.inr (Or.inl hq)
              · exact Or.inr (Or.inr hq)
            obtain ⟨c1, c2, c3, c4⟩ := ih rest seen final hS1' hS2 hS3' hres
            have hxyb : onBoundary img x y = false := by
              rcases hS2 _ hseen with ⟨p0, hp01, hp02, hp0i, hp0b, _⟩
              have hxw : x < img.width := (hS1 (x, y) (List.mem_cons_self _ _)).1
              have heq : (x, y) = p0 := pixelIndex_inj img.width hxw hp01 hp0i
              have hx0 : x = p0.1 := congrArg Prod.fst heq
              have hy0 : y = p0.2 := congrArg Prod.snd heq
              rw [hx0, hy0]
              exact hp0b
            refine ⟨c1, ?_, ?_, c4⟩
            · intro p hp
              rcases List.mem_cons.mp hp with rfl | hp
              · exact hxyb
              · exact c2 p hp
            · intro p hp hm
              rcases List.mem_cons.mp hp with rfl | hp
              · exact c1 hseen
              · exact c3 p hp hm
          · rw [if_neg hseen] at hres
            by_cases hbd : onBoundary img x y = true
            · rw [if_pos hbd] at hres
              exact absurd hres (by simp)
            · rw [if_neg hbd] at hres
              have hbd' : onBoundary img x y = false := Bool.eq_false_iff.mpr hbd
              have hint := interior_of_not_boundary img x y hbd'
              have hxw : x < img.width := by omega
              have hyh : y < img.height := by omega
              by_cases hmc : matchColor img tR tG tB tA x y = true
              · rw [if_pos hmc] at hres
                have hS1' : ∀ p ∈ pushNeighbors img x y rest,
                    p.1 < img.width ∧ p.2 < img.height := by
                  intro p hp
                  rcases pushNeighbors_bounds img x y rest hxw hyh p hp with hp | hp
                  · exact hS1 p (List.mem_cons_of_mem _ hp)
                  · exact hp
                have hS2' : ∀ i ∈ insert (y * img.width + x) seen,
                    ∃ p : ℕ × ℕ, p.1 < img.width ∧ p.2 < img.height ∧
                      i = p.2 * img.width + p.1 ∧ onBoundary img p.1 p.2 = false ∧
                      matchColor img tR tG tB tA p.1 p.2 = true := by
                  intro i hi
                  rcases Finset.mem_insert.mp hi with rfl | hi
                  · exact ⟨(x, y), hxw, hyh, rfl, hbd', hmc⟩
                  · exact hS2 i hi
                have hS3' : ∀ p : ℕ × ℕ, p.1 < img.width → p.2 < img.height →
                    p.2 * img.width + p.1 ∈ insert (y * img.width + x) seen →
                    ∀ q : ℕ × ℕ, adjB p q = true → q.1 < img.width → q.2 < img.height →
                      q ∈ pushNeighbors img x y rest ∨
                        q.2 * img.width + q.1 ∈ insert (y * img.width + x) seen ∨
                        (onBoundary img q.1 q.2 = false ∧
                          matchColor img tR tG tB tA q.1 q.2 = false) := by
                  intro p hp1 hp2 hpseen q hadj hq1 hq2
                  rcases Finset.mem_insert.mp hpseen with hpi | hpi
                  · have : p = (x, y) := pixelIndex_inj img.width hp1 hxw hpi
                    subst this
                    exact Or.inl (mem_pushNeighbors_of_adj img x y rest
                      hint.1 hint.2.1 hint.2.2.1 hint.2.2.2 q hadj)
                  · rcases hS3 p hp1 hp2 hpi q hadj hq1 hq2 with hq | hq | hq
                    · rcases List.mem_cons.mp hq with rfl | hq
                      · exact Or.inr (Or.inl (Finset.mem_insert_self _ _))
                      · exact Or.inl (mem_pushNeighbors_of_mem img x y rest hq)
                    · exact Or.inr (Or.inl (Finset.mem_insert_of_mem hq))
                    · exact Or.inr (Or.inr hq)
                obtain ⟨c1, c2, c3, c4⟩ := ih _ _ final hS1' hS2' hS3' hres
                have hins : y * img.width + x ∈ final :=
                  c1 (Finset.mem_insert_self _ _)
                refine ⟨fun i hi => c1 (Finset.mem_insert_of_mem hi), ?_, ?_, c4⟩
                · intro p hp
                  rcases List.mem_cons.mp hp with rfl | hp
                  · exact hbd'
                  · exact c2 p (mem_pushNeighbors_of_mem img x y rest hp)
                · intro p hp hm
                  rcases List.mem_cons.mp hp with rfl | hp
                  · exact hins
                  · exact c3 p (mem_pushNeighbors_of_mem img x y rest hp) hm
              · rw [if_neg hmc] at hres
                have hmc' : matchColor img tR tG tB tA x y = false :=
                  Bool.eq_false_iff.mpr hmc
                have hS1' : ∀ p ∈ rest, p.1 < img.width ∧ p.2 < img.height :=
                  fun p hp => hS1 p (List.mem_cons_of_mem _ hp)
                have hS3' : ∀ p : ℕ × ℕ, p.1 < img.width → p.2 < img.height →
                    p.2 * img.width + p.1 ∈ seen →
                    ∀ q : ℕ × ℕ, adjB p q = true → q.1 < img.width → q.2 < img.height →
                      q ∈ rest ∨ q.2 * img.width + q.1 ∈ seen ∨
                        (onBoundary img q.1 q.2 = false ∧
                          matchColor img tR tG tB tA q.1 q.2 = false) := by
                  intro p hp1 hp2 hpseen q hadj hq1 hq2
                  rcases hS3 p hp1 hp2 hpseen q hadj hq1 hq2 with hq | hq | hq
                  · rcases List.mem_cons.mp hq with rfl | hq
                    · exact Or.inr (Or.inr ⟨hbd', hmc'⟩)
                    · exact Or.inl hq
                  · exact Or.inr (Or.inl hq)
                  · exact Or.inr (Or.inr hq)
                obtain ⟨c1, c2, c3, c4⟩ := ih rest seen final hS1' hS2 hS3' hres
                refine ⟨c1, ?_, ?_, c4⟩
                · intro p hp
                  rcases List.mem_cons.mp hp with rfl | hp
                  · exact hbd'
                  · exact c2 p hp
                · intro p hp hm
                  rcases List.mem_cons.mp hp with rfl | hp
                  · exact absurd hm (by simp [hmc'])
                  · exact c3 p hp hm

/-- The last element (with default) of a nonempty list is a member. -/
theorem getLastD_mem : ∀ (l : List (ℕ × ℕ)) (d : ℕ × ℕ), l ≠ [] → l.getLastD d ∈ l := by
  intro l
  induction l with
  | nil => intro d h; exact absurd rfl h
  | cons a l ih =>
      intro d _
      rw [List.getLastD_cons]
      cases l with
      | nil => simp [List.getLastD]
      | cons b l' => exact List.mem_cons_of_mem _ (ih a (by simp))

/-- Walking an interior matched 4-adjacent chain whose start index is in
a region closed under matched in-bounds neighbors keeps the chain's last
index in the region. -/
theorem path_in_final (img : Raster) (tR tG tB tA : ℕ) (final : Finset ℕ)
    (hclosed : ∀ p : ℕ × ℕ, p.1 < img.width → p.2 < img.height →
        p.2 * img.width + p.1 ∈ final →
        ∀ q : ℕ × ℕ, adjB p q = true → q.1 < img.width → q.2 < img.height →
          onBoundary img q.1 q.2 = false ∧
            (matchColor img tR tG tB tA q.1 q.2 = true →
              q.2 * img.width + q.1 ∈ final)) :
    ∀ (path : List (ℕ × ℕ)) (s : ℕ × ℕ), path.head? = some s →
      chainAdjB path = true →
      (∀ p ∈ path, onBoundary img p.1 p.2 = false ∧
          matchColor img tR tG tB tA p.1 p.2 = true) →
      s.2 * img.width + s.1 ∈ final →
      (path.getLastD s).2 * img.width + (path.getLastD s).1 ∈ final := by
  intro path
  induction path with
  | nil => intro s hs; exact absurd hs (by simp)
  | cons p rest ih =>
      intro s hs hchain hmem hstart
      have hsp : p = s := by simpa using hs
      subst hsp
      cases rest with
      | nil => simpa [List.getLastD] using hstart
      | cons q0 rest' =>
          simp only [chainAdjB, Bool.and_eq_true] at hchain
          have hpint := hmem p (List.mem_cons_self _ _)
          have hq0int := hmem q0 (List.mem_cons_of_mem _ (List.mem_cons_self _ _))
          have hpbounds := interior_of_not_boundary img p.1 p.2 hpint.1
          have hq0bounds := interior_of_not_boundary img q0.1 q0.2 hq0int.1
          have hq0mem : q0.2 * img.width + q0.1 ∈ final :=
            (hclosed p (by omega) (by omega) hstart q0 hchain.1
              (by omega) (by omega)).2 hq0int.2
          have hrec := ih q0 rfl hchain.2
            (fun r hr => hmem r (List.mem_cons_of_mem _ hr)) hq0mem
          rw [List.getLastD_cons] at hrec
          rw [List.getLastD_cons, List.getLastD_cons]
          exact hrec

/-- Extracting, from an in-bounds matched chain that ends on the raster
boundary, either "the seed itself is on the boundary" or a strictly
interior matched prefix whose last element is 4-adjacent to an in-bounds
boundary pixel. -/
theorem leak_path_extract (img : Raster) (sx sy : ℕ) :
    ∀ (path : List (ℕ × ℕ)) (s : ℕ × ℕ), path.head? = some s →
      chainAdjB path = true →
      (∀ p ∈ path, inBoundsB img p = true ∧ matchesSeed img sx sy p.1 p.2 = true) →
      onBoundary img (path.getLastD s).1 (path.getLastD s).2 = true →
      onBoundary img s.1 s.2 = true ∨
        ∃ (ipath : List (ℕ × ℕ)) (q : ℕ × ℕ),
          ipath.head? = some s ∧ chainAdjB ipath = true ∧
          (∀ p ∈ ipath, onBoundary img p.1 p.2 = false ∧
              matchesSeed img sx sy p.1 p.2 = true) ∧
          adjB (ipath.getLastD s) q = true ∧ inBoundsB img q = true ∧
          onBoundary img q.1 q.2 = true := by
  intro path
  induction path with
  | nil => intro s hs; exact absurd hs (by simp)
  | cons p rest ih =>
      intro s hs hchain hmem hlast
      have hsp : p = s := by simpa using hs
      subst hsp
      by_cases hb : onBoundary img p.1 p.2 = true
      · exact Or.inl hb
      · have hb' : onBoundary img p.1 p.2 = false := Bool.eq_false_iff.mpr hb
        cases rest with
        | nil =>
            rw [List.getLastD_cons, List.getLastD] at hlast
            exact absurd hlast hb
        | cons q0 rest' =>
            simp only [chainAdjB, Bool.and_eq_true] at hchain
            rw [List.getLastD_cons] at hlast
            have hlast' : onBoundary img
                ((q0 :: rest').getLastD q0).1 ((q0 :: rest').getLastD q0).2 = true := by
              rw [List.getLastD_cons]
              rwa [List.getLastD_cons] at hlast
            rcases ih q0 rfl hchain.2
                (fun r hr => hmem r (List.mem_cons_of_mem _ hr)) hlast' with hq0b | hrec
            · refine Or.inr ⟨[p], q0, rfl, rfl, ?_, ?_, ?_, hq0b⟩
              · intro r hr
                rcases List.mem_cons.mp hr with rfl | hr
                · exact ⟨hb', (hmem r (List.mem_cons_self _ _)).2⟩
                · exact absurd hr (by simp)
              · simpa [List.getLastD] using hchain.1
              · exact (hmem q0 (List.mem_cons_of_mem _ (List.mem_cons_self _ _))).1
            · rcases hrec with ⟨ipath, q, hih, hic, him, hia, hiq, hib⟩
              cases ipath with
              | nil => exact absurd hih (by simp)
              | cons a t =>
                  have haq : a = q0 := by simpa using hih
                  refine Or.inr ⟨p :: a :: t, q, rfl, ?_, ?_, ?_, hiq, hib⟩
                  · simp only [chainAdjB, Bool.and_eq_true]
                    refine ⟨by rw [haq]; exact hchain.1, ?_⟩
                    simpa [chainAdjB] using hic
                  · intro r hr
                    rcases List.mem_cons.mp hr with rfl | hr
                    · exact ⟨hb', (hmem r (List.mem_cons_self _ _)).2⟩
                    · exact him r hr
                  · rw [List.getLastD_cons, List.getLastD_cons]
                    rw [List.getLastD_cons] at hia
                    exact hia

/-- Shared endgame: if either the seed sits on the raster boundary, or
some strictly interior matched chain from the seed ends next to an
in-bounds boundary pixel, `getFloodFillRegion` returns `null`. -/
theorem floodFill_abort_cases (img : Raster) (startX startY : ℤ)
    (fR fG fB fA : ℕ)
    (hdata : onBoundary img startX.toNat startY.toNat = true ∨
      ∃ (path : List (ℕ × ℕ)) (q : ℕ × ℕ),
        path.head? = some (startX.toNat, startY.toNat) ∧
        chainAdjB path = true ∧
        (∀ p ∈ path, onBoundary img p.1 p.2 = false ∧
            matchesSeed img startX.toNat startY.toNat p.1 p.2 = true) ∧
        adjB (path.getLastD (startX.toNat, startY.toNat)) q = true ∧
        inBoundsB img q = true ∧ onBoundary img q.1 q.2 = true) :
    getFloodFillRegion img startX startY fR fG fB fA = none := by
  simp only [getFloodFillRegion]
  split_ifs with h1 h2
  · rfl
  · rfl
  · push_neg at h1
    have hsx : startX.toNat < img.width := by omega
    have hsy : startY.toNat < img.height := by omega
    have hne := floodLoop_ne_fuelOut img
      (img.data ((startY.toNat * img.width + startX.toNat) * 4))
      (img.data ((startY.toNat * img.width + startX.toNat) * 4 + 1))
      (img.data ((startY.toNat * img.width + startX.toNat) * 4 + 2))
      (img.data ((startY.toNat * img.width + startX.toNat) * 4 + 3))
      (floodFuel img) [(startX.toNat, startY.toNat)] ∅
      (Finset.empty_subset _)
      (by simp [floodFuel]; omega)
    cases hres : floodLoop img
        (img.data ((startY.toNat * img.width + startX.toNat) * 4))
        (img.data ((startY.toNat * img.width + startX.toNat) * 4 + 1))
        (img.data ((startY.toNat * img.width + startX.toNat) * 4 + 2))
        (img.data ((startY.toNat * img.width + startX.toNat) * 4 + 3))
        (floodFuel img) [(startX.toNat, startY.toNat)] ∅ with
    | none => exact absurd hres hne
    | some r =>
        cases r with
        | none => rfl
        | some final =>
            exfalso
            obtain ⟨c1, c2, c3, c4⟩ := floodLoop_no_leak img
              (img.data ((startY.toNat * img.width + startX.toNat) * 4))
              (img.data ((startY.toNat * img.width + startX.toNat) * 4 + 1))
              (img.data ((startY.toNat * img.width + startX.toNat) * 4 + 2))
              (img.data ((startY.toNat * img.width + startX.toNat) * 4 + 3))
              (floodFuel img) [(startX.toNat, startY.toNat)] ∅ final
              (by
                intro p hp
                rcases List.mem_cons.mp hp with rfl | hp
                · exact ⟨hsx, hsy⟩
                · exact absurd hp (by simp))
              (by simp)
              (by simp)
              hres
            rcases hdata with hseedbd | ⟨path, q, hhead, hchain, hmem, hadj, hqb, hqbd⟩
            · have := c2 (startX.toNat, startY.toNat) (List.mem_cons_self _ _)
              rw [this] at hseedbd
              exact Bool.noConfusion hseedbd
            · have hseed : (startX.toNat, startY.toNat) ∈ path :=
                List.mem_of_mem_head? hhead
              have hseedgood := hmem _ hseed
              have hseedfin : startY.toNat * img.width + startX.toNat ∈ final :=
                c3 (startX.toNat, startY.toNat) (List.mem_cons_self _ _) hseedgood.2
              have hlastfin := path_in_final img _ _ _ _ final c4 path
                (startX.toNat, startY.toNat) hhead hchain hmem hseedfin
              set plast := path.getLastD (startX.toNat, startY.toNat) with hplast
              have hplastmem : plast ∈ path :=
                getLastD_mem path _ (by
                  intro hnil
                  rw [hnil] at hhead
                  exact absurd hhead (by simp))
              have hplastint := interior_of_not_boundary img plast.1 plast.2
                (hmem plast hplastmem).1
              have hqbounds : q.1 < img.width ∧ q.2 < img.height := by
                simpa [inBoundsB, Bool.and_eq_true, decide_eq_true_eq] using hqb
              have := (c4 plast (by omega) (by omega) hlastfin q hadj
                hqbounds.1 hqbounds.2).1
              rw [this] at hqbd
              exact Bool.noConfusion hqbd

/-- **C3.** If the 4-connected flood region (channel-wise tolerance 35
against the seed color) reaches the absolute edge of the raster — here
witnessed by an in-bounds matched 4-adjacent path from the seed ending on
an edge pixel — `getFloodFillRegion` returns `null` rather than a partial
or full patch. -/
theorem floodFill_edge_leak_null (img : Raster) (startX startY : ℤ)
    (fR fG fB fA : ℕ) (path : List (ℕ × ℕ))
    (hhead : path.head? = some (startX.toNat, startY.toNat))
    (hchain : chainAdjB path = true)
    (hmem : ∀ p ∈ path, inBoundsB img p = true ∧
        matchesSeed img startX.toNat startY.toNat p.1 p.2 = true)
    (hlast : onBoundary img (path.getLastD (startX.toNat, startY.toNat)).1
        (path.getLastD (startX.toNat, startY.toNat)).2 = true) :
    getFloodFillRegion img startX startY fR fG fB fA = none := by
  refine floodFill_abort_cases img startX startY fR fG fB fA ?_
  rcases leak_path_extract img startX.toNat startY.toNat path
      (startX.toNat, startY.toNat) hhead hchain hmem hlast with h | h
  · exact Or.inl h
  · exact Or.inr h

/-- Witness for the **C3** theorem: a uniformly colored 3×3 raster,
seeded at the center; the region reaches the edge, so the fill is a
no-op. -/
theorem floodFill_edge_leak_null_witness :
    (([((1 : ℕ), (1 : ℕ)), (1, 2)] : List (ℕ × ℕ)).head? =
        some ((1 : ℤ).toNat, (1 : ℤ).toNat) ∧
      chainAdjB [(1, 1), (1, 2)] = true ∧
      (∀ p ∈ ([(1, 1), (1, 2)] : List (ℕ × ℕ)), inBoundsB raster3 p = true ∧
        matchesSeed raster3 (1 : ℤ).toNat (1 : ℤ).toNat p.1 p.2 = true) ∧
      onBoundary raster3
          (([((1 : ℕ), (1 : ℕ)), (1, 2)].getLastD ((1 : ℤ).toNat, (1 : ℤ).toNat)).1)
          (([((1 : ℕ), (1 : ℕ)), (1, 2)].getLastD ((1 : ℤ).toNat, (1 : ℤ).toNat)).2) = true) ∧
    getFloodFillRegion raster3 1 1 0 0 0 0 = none := by
  refine ⟨⟨by decide, by decide, by decide, by decide⟩, ?_⟩
  exact floodFill_edge_leak_null raster3 1 1 0 0 0 0 [(1, 1), (1, 2)]
    (by decide) (by decide) (by decide) (by decide)

/-- **C10.** `getFloodFillRegion` returns `null` already whenever a
color-matched pixel reachable from the seed through interior pixels is
4-adjacent to an in-bounds edge pixel: neighbors are pushed
unconditionally and the boundary test precedes the color-match test, so
a region merely touching the one-pixel inner ring aborts the fill even
if the edge pixels themselves do not match the seed color. -/
theorem floodFill_inner_ring_abort (img : Raster) (startX startY : ℤ)
    (fR fG fB fA : ℕ) (path : List (ℕ × ℕ)) (q : ℕ × ℕ)
    (hhead : path.head? = some (startX.toNat, startY.toNat))
    (hchain : chainAdjB path = true)
    (hmem : ∀ p ∈ path, onBoundary img p.1 p.2 = false ∧
        matchesSeed img startX.toNat startY.toNat p.1 p.2 = true)
    (hadj : adjB (path.getLastD (startX.toNat, startY.toNat)) q = true)
    (hqb : inBoundsB img q = true)
    (hqbd : onBoundary img q.1 q.2 = true) :
    getFloodFillRegion img startX startY fR fG fB fA = none :=
  floodFill_abort_cases img startX startY fR fG fB fA
    (Or.inr ⟨path, q, hhead, hchain, hmem, hadj, hqb, hqbd⟩)

/-- Witness for the **C10** theorem: in `raster4` the interior 2×2 block
(color 100) touches the inner ring; the edge pixel `(0,1)` next to the
seed has color 0, far outside tolerance, yet the fill aborts. -/
theorem floodFill_inner_ring_abort_witness :
    (([((1 : ℕ), (1 : ℕ))] : List (ℕ × ℕ)).head? =
        some ((1 : ℤ).toNat, (1 : ℤ).toNat) ∧
      chainAdjB [(1, 1)] = true ∧
      (∀ p ∈ ([(1, 1)] : List (ℕ × ℕ)), onBoundary raster4 p.1 p.2 = false ∧
        matchesSeed raster4 (1 : ℤ).toNat (1 : ℤ).toNat p.1 p.2 = true) ∧
      adjB ([((1 : ℕ), (1 : ℕ))].getLastD ((1 : ℤ).toNat, (1 : ℤ).toNat)) (0, 1) = true ∧
      inBoundsB raster4 (0, 1) = true ∧
      onBoundary raster4 0 1 = true ∧
      absDiff (raster4.data ((1 * raster4.width + 1) * 4))
          (raster4.data ((1 * raster4.width + 0) * 4)) > 35) ∧
    getFloodFillRegion raster4 1 1 200 200 200 255 = none := by
  refine ⟨⟨by decide, by decide, by decide, by decide, by decide, by decide, by decide⟩, ?_⟩
  exact floodFill_inner_ring_abort raster4 1 1 200 200 200 255 [(1, 1)] (0, 1)
    (by decide) (by decide) (by decide) (by decide) (by decide) (by decide)

/-- **C7 (amended).** `getFloodFillRegion` is a no-op (returns `null`)
when the pixel color at the in-bounds seed **exactly** equals the parsed
fill color on every channel — in particular filling a region already
exactly in the target color returns `null`.  (The claimed
within-tolerance early exit does not exist: the source compares with
`===`; see the counterexample.) -/
theorem floodFill_exact_match_noop (img : Raster) (startX startY : ℤ)
    (fR fG fB fA : ℕ)
    (hbounds : ¬(startX < 0 ∨ (img.width : ℤ) ≤ startX ∨ startY < 0 ∨
        (img.height : ℤ) ≤ startY))
    (heq : img.data ((startY.toNat * img.width + startX.toNat) * 4) = fR ∧
      img.data ((startY.toNat * img.width + startX.toNat) * 4 + 1) = fG ∧
      img.data ((startY.toNat * img.width + startX.toNat) * 4 + 2) = fB ∧
      img.data ((startY.toNat * img.width + startX.toNat) * 4 + 3) = fA) :
    getFloodFillRegion img startX startY fR fG fB fA = none := by
  simp only [getFloodFillRegion]
  rw [if_neg hbounds, if_pos heq]

/-- Witness for the **C7** theorem: filling a 1×1 all-zero raster with
the exact color already present is a no-op. -/
theorem floodFill_exact_match_noop_witness :
    (¬((0 : ℤ) < 0 ∨ (raster1.width : ℤ) ≤ 0 ∨ (0 : ℤ) < 0 ∨
        (raster1.height : ℤ) ≤ 0) ∧
      (raster1.data (((0 : ℤ).toNat * raster1.width + (0 : ℤ).toNat) * 4) = 0 ∧
        raster1.data (((0 : ℤ).toNat * raster1.width + (0 : ℤ).toNat) * 4 + 1) = 0 ∧
        raster1.data (((0 : ℤ).toNat * raster1.width + (0 : ℤ).toNat) * 4 + 2) = 0 ∧
        raster1.data (((0 : ℤ).toNat * raster1.width + (0 : ℤ).toNat) * 4 + 3) = 0)) ∧
    getFloodFillRegion raster1 0 0 0 0 0 0 = none := by
  refine ⟨⟨by decide, by decide, by decide, by decide, by decide⟩, ?_⟩
  exact floodFill_exact_match_noop raster1 0 0 0 0 0 0 (by decide)
    ⟨by decide, by decide, by decide, by decide⟩

/-- **C7, counterexample to the claim as stated.**  In `raster7` the
seed pixel `(3,3)` has color `(100,100,100,255)`, within tolerance 35 of
the fill color `(110,110,110,255)` on every channel, yet the fill is NOT
a no-op: the early exit compares with strict equality, the flood runs and
returns a patch.  (The central 3×3 region stays clear of the inner ring,
so the fill succeeds.) -/
theorem floodFill_tolerance_claim_counterexample :
    (absDiff (raster7.data (((3 : ℤ).toNat * raster7.width + (3 : ℤ).toNat) * 4)) 110 ≤ 35 ∧
      absDiff (raster7.data (((3 : ℤ).toNat * raster7.width + (3 : ℤ).toNat) * 4 + 1)) 110 ≤ 35 ∧
      absDiff (raster7.data (((3 : ℤ).toNat * raster7.width + (3 : ℤ).toNat) * 4 + 2)) 110 ≤ 35 ∧
      absDiff (raster7.data (((3 : ℤ).toNat * raster7.width + (3 : ℤ).toNat) * 4 + 3)) 255 ≤ 35) ∧
    getFloodFillRegion raster7 3 3 110 110 110 255 ≠ none := by
  exact ⟨⟨by decide, by decide, by decide, by decide⟩, by decide⟩

end Drawith
